import Mathlib

/-!
# Verification of the turtle-rpm base-detection and pivot-scan engine

Shallow embedding of `turtle_rpm/sepa.py` and `turtle_rpm/pivot_scan.py`.

Modelling conventions:
* prices and volumes are exact rationals (`ℚ`);
* dates are integers (serial day numbers; for the weekly-aggregation model a
  date `d` has weekday `d % 7` with `0` = Monday, …, `4` = Friday);
* a pandas column that may hold `NaN` is modelled as `Option ℚ`
  (`none` = missing);
* `round(x, 2)` (Python round-half-to-even) is modelled by `round2`;
* DataFrames become lists of records, ordered as the frame's rows.
-/

set_option linter.unusedVariables false

-- The Batteries rational-number operations are `@[irreducible]`, which blocks
-- kernel evaluation of concrete instances; re-allow unfolding for this file.
attribute [local semireducible] Rat.mul Rat.add Rat.sub Rat.inv

namespace TurtleRpm

/-- Python `round` to an integer: round half to even (banker's rounding).
`x.num / x.den` is `⌊x⌋` (`Rat.floor_def`), written in this form so that the
definition evaluates by kernel reduction. -/
def roundHalfEven (x : ℚ) : ℤ :=
  let n := x.num / x.den
  let r := x - n
  if r < 1/2 then n
  else if 1/2 < r then n + 1
  else if n % 2 = 0 then n else n + 1

/-- Python `round(x, 2)`. -/
def round2 (x : ℚ) : ℚ := (roundHalfEven (x * 100) : ℚ) / 100

/-- One daily OHLCV bar (a row of the daily DataFrame). -/
structure DailyBar where
  date : ℤ
  open' : ℚ
  high : ℚ
  low : ℚ
  close : ℚ
  volume : ℚ
  deriving Repr, DecidableEq

/-- One weekly OHLCV bar (a row of the weekly DataFrame used by `find_bases`). -/
structure WeeklyBar where
  date : ℤ
  open' : ℚ
  high : ℚ
  low : ℚ
  close : ℚ
  volume : ℚ
  deriving Repr, DecidableEq

/-- Maximum of a list of rationals (`Series.max()` on a non-empty column);
`0` for the empty list (never used on empty data by the callers). -/
def listMax : List ℚ → ℚ
  | [] => 0
  | h :: t => t.foldl max h

/-- Minimum of a list of rationals (`Series.min()`). -/
def listMin : List ℚ → ℚ
  | [] => 0
  | h :: t => t.foldl min h

/-- `Series.mean()` of a non-empty column; `0` for the empty list (callers
guard emptiness, mirroring pandas returning `NaN` there). -/
def listMean (l : List ℚ) : ℚ := l.sum / l.length

/-- `df.tail(n)`: the last `n` rows. -/
def takeLast {α : Type} (n : ℕ) (l : List α) : List α := l.drop (l.length - n)

-- Constants from sepa.py
def MIN_DAILY_BARS : ℕ := 252
def UPTREND_SLOPE_DAYS : ℕ := 21
def SMA_RISING_LOOKBACK : ℕ := 5
def PIVOT_WEEKS : ℕ := 2
def POWER_PLAY_WEEKS : ℕ × ℕ := (2, 6)
def DARVAS_WEEKS : ℕ × ℕ := (4, 6)
def CUP_CHEAT_WEEKS : ℕ × ℕ := (6, 52)
def CUP_HANDLE_WEEKS : ℕ × ℕ := (7, 65)
def DOUBLE_BOTTOM_WEEKS : ℕ × ℕ := (7, 65)
def POWER_PLAY_MIN_RUNUP : ℚ := 90/100
def DOUBLE_BOTTOM_LOW_TOLERANCE : ℚ := 5/100
def DARVAS_MAX_DEPTH_PCT : ℚ := 25
def TRAILING_HIGH_LOOKBACK_WEEKS : ℕ := 12
def CUP_CHEAT_MIN_WEEKS_CURRENT : ℕ := 5
def PIVOT_FORMING_MIN_DAYS : ℕ := 3
def PIVOT_FORMING_MAX_DAYS : ℕ := 10
def PIVOT_FORMING_MAX_RANGE_PCT : ℚ := 8
def PIVOT_TIGHT_CLOSES_DAYS : ℕ := 3
def PIVOT_TIGHT_CLOSES_MAX_PCT : ℚ := 3
def PIVOT_VOLUME_LOOKBACK_DAYS : ℕ := 50

/-- Result dictionary of `pivot_forming`. -/
structure PivotResult where
  forming : Bool
  days : Option ℕ
  range_pct : Option ℚ
  tight_closes : Bool
  pivot_start_date : Option ℤ
  pivot_end_date : Option ℤ
  pivot_high : Option ℚ
  deriving Repr, DecidableEq

/-- The all-`None` result returned when no pivot is forming. -/
def emptyPivotResult : PivotResult :=
  { forming := false, days := none, range_pct := none, tight_closes := false,
    pivot_start_date := none, pivot_end_date := none, pivot_high := none }

/-- Candidate window lengths tried by `pivot_forming`:
`range(min(len(tail), max_days), min_days - 1, -1)`, i.e. the descending list
`min(n, max_days), …, min_days`. -/
def pivotWindowLengths (n minDays maxDays : ℕ) : List ℕ :=
  ((List.range (min n maxDays + 1)).filter (fun L => minDays ≤ L)).reverse

/-- Body of one iteration of the `pivot_forming` search loop: the window is the
last `L` bars; qualify when max high is positive and the high-low range is
strictly below `max_range_pct` percent of the high. -/
def pivotWindowQualifies (df : List DailyBar) (maxRangePct : ℚ) (L : ℕ) : Bool :=
  let window := takeLast L df
  let wHigh := listMax (window.map (·.high))
  let wLow := listMin (window.map (·.low))
  decide (0 < wHigh ∧ (wHigh - wLow) / wHigh * 100 < maxRangePct)

/-- `pivot_forming` (sepa.py): detect a 3–10 day tight consolidation in the
most recent daily bars, preferring the longest qualifying window. -/
def pivot_forming (df : List DailyBar)
    (minDays : ℕ := PIVOT_FORMING_MIN_DAYS)
    (maxDays : ℕ := PIVOT_FORMING_MAX_DAYS)
    (maxRangePct : ℚ := PIVOT_FORMING_MAX_RANGE_PCT)
    (tightClosesDays : ℕ := PIVOT_TIGHT_CLOSES_DAYS)
    (tightClosesPct : Option ℚ := some PIVOT_TIGHT_CLOSES_MAX_PCT) :
    PivotResult :=
  if df.isEmpty ∨ df.length < minDays then emptyPivotResult
  else
    let tail := takeLast maxDays df
    if tail.length < minDays then emptyPivotResult
    else
      -- Prefer longest qualifying window: try L from max_days down to min_days
      match (pivotWindowLengths tail.length minDays maxDays).find?
          (pivotWindowQualifies tail maxRangePct) with
      | none => emptyPivotResult
      | some L =>
        let window := takeLast L tail
        let wHigh := listMax (window.map (·.high))
        let wLow := listMin (window.map (·.low))
        let rangePct := (wHigh - wLow) / wHigh * 100
        let tightCloses :=
          match tightClosesPct with
          | none => false
          | some tcp =>
            if tightClosesDays ≤ L then
              let closes := (takeLast tightClosesDays window).map (·.close)
              let cMax := listMax closes
              let cMin := listMin closes
              let midpoint := (cMax + cMin) / 2
              if 0 < midpoint then
                decide ((cMax - cMin) / midpoint * 100 ≤ tcp)
              else false
            else false
        { forming := true,
          days := some L,
          range_pct := some (round2 rangePct),
          tight_closes := tightCloses,
          pivot_start_date := (window.head?).map (·.date),
          pivot_end_date := (window.getLast?).map (·.date),
          pivot_high := some (round2 wHigh) }

/-- `pivot_volume_vs_average` (sepa.py): compare mean volume in the pivot
window to mean volume over the 50-day lookback tail. -/
def pivot_volume_vs_average (df : List DailyBar) (pivot : PivotResult)
    (lookbackDays : ℕ := PIVOT_VOLUME_LOOKBACK_DAYS) : Option String :=
  if ¬pivot.forming ∨ df.isEmpty then none
  else
    match pivot.days with
    | none => none
    | some L =>
      if L < 1 then none
      else
        let tail := takeLast (max lookbackDays L) df
        if tail.length < L then none
        else
          let pivotWindow := takeLast L tail
          let avgLookback := listMean (tail.map (·.volume))
          let pivotAvg := listMean (pivotWindow.map (·.volume))
          if avgLookback ≤ 0 then none
          else if pivotAvg < avgLookback then some "below" else some "above"

/-- Weekday of serial day number `d`: `0` = Monday, …, `4` = Friday,
`5` = Saturday, `6` = Sunday. -/
def weekday (d : ℤ) : ℤ := d % 7

/-- The label of the `W-FRI` resampling bucket containing day `d`: the first
Friday at or after `d`. -/
def fridayOn (d : ℤ) : ℤ := d + (4 - d) % 7

/-- The next trading day after `d` in a gap-free Monday-to-Friday calendar:
the following Monday when `d` is a Friday, the next day otherwise.  Used to
express the hypothesis that a daily frame has consecutive trading days. -/
def tradingDaySucc (d : ℤ) : ℤ := if d % 7 = 4 then d + 3 else d + 1

/-- A row of the weekly frame as built by `to_weekly`: aggregated OHLC columns
are `NaN` (`none`) on calendar weeks containing no daily bar, while the summed
volume of an empty week is `0`, not `NaN`. -/
structure WeeklyAggRow where
  date : ℤ
  open' : Option ℚ
  high : Option ℚ
  low : Option ℚ
  close : Option ℚ
  volume : Option ℚ
  deriving Repr, DecidableEq

/-- One aggregated row of the `W-FRI` resampling in `to_weekly` (sepa.py):
the OHLCV aggregates over the daily bars falling in the week labelled `w`. -/
def weeklyRow (df : List DailyBar) (w : ℤ) : WeeklyAggRow :=
  let group := df.filter (fun b => fridayOn b.date = w)
  if group.isEmpty then
    { date := w, open' := none, high := none, low := none, close := none,
      volume := some 0 }
  else
    { date := w,
      open' := (group.head?).map (·.open'),
      high := some (listMax (group.map (·.high))),
      low := some (listMin (group.map (·.low))),
      close := (group.getLast?).map (·.close),
      volume := some ((group.map (·.volume)).sum) }

/-- `to_weekly` (sepa.py): aggregate daily OHLCV to calendar weeks ending
Friday (`resample("W-FRI")`), one bucket per week from the first to the last
date, then `dropna(how="all")`.  The daily frame is assumed to carry a Volume
column (as `get_daily_ohlcv` guarantees) and ascending dates. -/
def to_weekly (df : List DailyBar) : List WeeklyAggRow :=
  match df.head?, df.getLast? with
  | some first, some last =>
    let f0 := fridayOn first.date
    let f1 := fridayOn last.date
    let numWeeks := ((f1 - f0) / 7 + 1).toNat
    ((List.range numWeeks).map (fun (k : ℕ) =>
      weeklyRow df (f0 + 7 * (k : ℤ)))).filter
      (fun r => ¬(r.open'.isNone ∧ r.high.isNone ∧ r.low.isNone ∧
        r.close.isNone ∧ r.volume.isNone))
  | _, _ => []

/-- A row of the daily DataFrame after `compute_smas`: the date, the close and
the three SMA columns (`none` while fewer than `window` bars exist).  The raw
OHLC columns are consumed only by the external ATR computation, which is
modelled separately (see `find_bases`). -/
structure SmaRow where
  date : ℤ
  close : ℚ
  sma50 : Option ℚ
  sma150 : Option ℚ
  sma200 : Option ℚ
  deriving Repr, DecidableEq, Inhabited

instance : Inhabited DailyBar := ⟨⟨0, 0, 0, 0, 0, 0⟩⟩

/-- Rolling mean with `min_periods = window`: the SMA of `closes` at row `i`
for window `w`, `none` until `w` bars exist. -/
def smaAt (closes : List ℚ) (w : ℕ) (i : ℕ) : Option ℚ :=
  if w ≤ i + 1 then some (((closes.drop (i + 1 - w)).take w).sum / w) else none

/-- `compute_smas` (sepa.py) restricted to the three default windows
50/150/200: returns a new frame (row `i` of the output is row `i` of the
input with the three SMA columns added). -/
def compute_smas (df : List DailyBar) : List SmaRow :=
  let closes := df.map (·.close)
  (List.range df.length).map (fun i =>
    let b := df.getD i default
    { date := b.date, close := b.close,
      sma50 := smaAt closes 50 i,
      sma150 := smaAt closes 150 i,
      sma200 := smaAt closes 200 i })

/-- Position of the nearest row at or before `d`:
`df_daily.index[df_daily.index <= date][-1]` resolved to its integer location
(dates are assumed unique, as in the data model). -/
def lastIndexLE (df : List SmaRow) (d : ℤ) : Option ℕ :=
  ((List.range df.length).filter (fun i => (df.getD i default).date ≤ d)).getLast?

/-- `uptrend_at_date` (sepa.py): at the nearest prior trading day, SMAs must be
ordered 50 > 150 > 200, the 200d SMA rising over 21 days, and all three SMAs
rising over 5 days (skipped when fewer than 5 prior bars exist). -/
def uptrend_at_date (df : List SmaRow) (date : ℤ) : Bool :=
  if df.isEmpty then false
  else
    match lastIndexLE df date with
    | none => false
    | some pos =>
      let row := df.getD pos default
      match row.sma50, row.sma150, row.sma200 with
      | some s50, some s150, some s200 =>
        if ¬(s150 < s50 ∧ s200 < s150) then false
        else if pos < UPTREND_SLOPE_DAYS then false
        else
          match (df.getD (pos - UPTREND_SLOPE_DAYS) default).sma200 with
          | none => false
          | some ago200 =>
            if s200 ≤ ago200 then false
            else if pos < SMA_RISING_LOOKBACK then true
            else
              let agoRow := df.getD (pos - SMA_RISING_LOOKBACK) default
              let rising : ℚ → Option ℚ → Bool := fun now ago =>
                match ago with
                | none => false
                | some a => decide (a < now)
              rising s50 agoRow.sma50 && rising s150 agoRow.sma150 &&
                rising s200 agoRow.sma200
      | _, _, _ => false

/-- A default weekly bar, used only for out-of-range `getD` accesses that the
callers' index arithmetic never actually performs. -/
instance : Inhabited WeeklyBar := ⟨⟨0, 0, 0, 0, 0, 0⟩⟩

/-- `_pivot_highs_lows` (sepa.py), pivot-high part: indices `i` whose weekly
high is ≥ every high in the window `[max(0, i-2), min(n, i+3))`. -/
def pivotHighIdxs (wk : List WeeklyBar) : List ℕ :=
  (List.range wk.length).filter (fun i =>
    let left := i - PIVOT_WEEKS
    let right := min wk.length (i + PIVOT_WEEKS + 1)
    let window := (wk.drop left).take (right - left)
    decide (listMax (window.map (·.high)) ≤ (wk.getD i default).high))

/-- `_pivot_highs_lows` (sepa.py), pivot-low part. -/
def pivotLowIdxs (wk : List WeeklyBar) : List ℕ :=
  (List.range wk.length).filter (fun i =>
    let left := i - PIVOT_WEEKS
    let right := min wk.length (i + PIVOT_WEEKS + 1)
    let window := (wk.drop left).take (right - left)
    decide ((wk.getD i default).low ≤ listMin (window.map (·.low))))

/-- `_classify_base` (sepa.py): classify a candidate base into one of six
types, priority Power Play > Darvas > Cup completion / Low cheat >
Cup w/ handle > Double bottom, with duration-range fallbacks. -/
def _classify_base (duration_weeks : ℕ) (depth_pct prior_high base_low
    latest_close : ℚ) (two_lows : Bool) (low1 low2 : Option ℚ)
    (has_handle : Bool) (prior_8wk_gain : Option ℚ)
    (is_current_base : Bool := false) : Option String :=
  let cup_range := prior_high - base_low
  let lower_third_bound :=
    if 0 < cup_range then base_low + cup_range / 3 else base_low
  let in_lower_third := latest_close ≤ lower_third_bound
  let cup_min_weeks :=
    if is_current_base then CUP_CHEAT_MIN_WEEKS_CURRENT else CUP_CHEAT_WEEKS.1
  let power_gain_ok : Bool :=
    match prior_8wk_gain with
    | some g => decide (POWER_PLAY_MIN_RUNUP ≤ g)
    | none => false
  let double_lows_ok : Bool :=
    match low1, low2 with
    | some l1, some l2 =>
      decide (0 < prior_high ∧
        |l1 - l2| / prior_high ≤ DOUBLE_BOTTOM_LOW_TOLERANCE)
    | _, _ => false
  -- Power Play: 2-6 weeks, prior 8-week gain >= 90%
  if POWER_PLAY_WEEKS.1 ≤ duration_weeks ∧ duration_weeks ≤ POWER_PLAY_WEEKS.2 ∧
      power_gain_ok then
    some "Power Play"
  -- Darvas box: 4-6 weeks, tight (depth <= DARVAS_MAX_DEPTH_PCT)
  else if DARVAS_WEEKS.1 ≤ duration_weeks ∧ duration_weeks ≤ DARVAS_WEEKS.2 ∧
      depth_pct ≤ DARVAS_MAX_DEPTH_PCT then
    some "Darvas box"
  -- Cup completion / Low cheat: cup_min_weeks to 52 weeks, no handle
  else if cup_min_weeks ≤ duration_weeks ∧ duration_weeks ≤ CUP_CHEAT_WEEKS.2 ∧
      ¬has_handle then
    if in_lower_third then some "Low cheat" else some "Cup completion cheat"
  -- Cup w/ handle: 7-65 weeks, two pullbacks
  else if CUP_HANDLE_WEEKS.1 ≤ duration_weeks ∧
      duration_weeks ≤ CUP_HANDLE_WEEKS.2 ∧ has_handle then
    some "Cup w/ handle"
  -- Double bottom: 7-65 weeks, two distinct lows at similar levels
  else if DOUBLE_BOTTOM_WEEKS.1 ≤ duration_weeks ∧
      duration_weeks ≤ DOUBLE_BOTTOM_WEEKS.2 ∧ two_lows ∧ double_lows_ok then
    some "Double bottom"
  -- Fallback: if in cup range and we didn't classify, cup completion
  else if cup_min_weeks ≤ duration_weeks ∧ duration_weeks ≤ CUP_CHEAT_WEEKS.2 then
    some "Cup completion cheat"
  else if CUP_HANDLE_WEEKS.1 ≤ duration_weeks ∧
      duration_weeks ≤ CUP_HANDLE_WEEKS.2 then
    some "Cup w/ handle"
  else none

/-- `df_weekly.iloc[a : b + 1]`. -/
def sliceIncl (wk : List WeeklyBar) (a b : ℕ) : List WeeklyBar :=
  (wk.drop a).take (b + 1 - a)

/-- `_resistance_for_base` (sepa.py): the breakout trigger price for a
classified base. -/
def _resistance_for_base (base_type : String) (segment : List WeeklyBar)
    (prior_high : ℚ) (df_weekly : List WeeklyBar) (hi_idx end_idx : ℕ)
    (lows_in_segment : List ℕ) (has_handle : Bool) : ℚ :=
  if base_type = "Cup w/ handle" ∧ has_handle ∧ 2 ≤ lows_in_segment.length then
    let second_low_idx := lows_in_segment.getD 1 0
    listMax ((sliceIncl df_weekly second_low_idx end_idx).map (·.high))
  else if base_type = "Double bottom" ∧ 2 ≤ lows_in_segment.length then
    let i0 := lows_in_segment.getD 0 0
    let i1 := lows_in_segment.getD 1 0
    listMax ((sliceIncl df_weekly i0 i1).map (·.high))
  else if base_type = "Darvas box" then
    listMax (segment.map (·.high))
  else
    -- Cup completion cheat, Low cheat, Power Play: prior_high
    prior_high

/-- Strictly-decreasing check used by `_vcp_like` on the pullback depths. -/
def strictlyDecreasing : List ℚ → Bool
  | [] => true
  | [_] => true
  | a :: b :: t => decide (b < a) && strictlyDecreasing (b :: t)

/-- `_vcp_like` (sepa.py): decreasing pullback depths, volume dry-up on down
weeks, and (when ATR data covers the base) contracting volatility.  The `atr`
list carries the 14-period ATR values computed by the external `pandas_ta`
library for the daily rows whose dates are `dailyDates` (in `find_bases` these
are always supplied, so the source's `df_daily is None` branch is not taken). -/
def _vcp_like (segment : List WeeklyBar) (lows_in_segment : List ℕ)
    (prior_high : ℚ) (df_weekly : List WeeklyBar) (dailyDates : List ℤ)
    (atr : List (Option ℚ)) (start_ts end_ts : ℤ) : Bool :=
  if prior_high ≤ 0 then false
  else
    let depths := lows_in_segment.map (fun i =>
      (prior_high - (df_weekly.getD i default).low) / prior_high * 100)
    if ¬(strictlyDecreasing depths) ∨ depths.length < 2 then false
    else
      -- Volume dry-up: avg volume on down weeks < avg volume on up weeks
      let upWeeks := segment.filter (fun b => b.open' ≤ b.close)
      let downWeeks := segment.filter (fun b => ¬(b.open' ≤ b.close))
      let volumeOk :=
        if downWeeks.isEmpty ∨ upWeeks.isEmpty then true
        else
          let downVol := listMean (downWeeks.map (·.volume))
          let upVol := listMean (upWeeks.map (·.volume))
          if upVol ≤ 0 then true else decide (downVol < upVol)
      if ¬volumeOk then false
      else
        -- ATR contraction: ATR at end of base must be < ATR at start
        let inRange := ((dailyDates.zip atr).filter
          (fun p => start_ts ≤ p.1 ∧ p.1 ≤ end_ts)).map (·.2)
        if ¬inRange.isEmpty ∧ inRange.any (·.isSome) then
          match inRange.head?.join, inRange.getLast?.join with
          | some atrStart, some atrEnd =>
            if 0 < atrStart ∧ atrStart ≤ atrEnd then false else true
          | _, _ => true
        else true

/-- `_buy_point_date` (sepa.py): date of the first week in
`[start_idx, end_idx]` whose close is at or above `resistance`. -/
def _buy_point_date (df_weekly : List WeeklyBar) (start_idx end_idx : ℕ)
    (resistance : ℚ) : Option ℤ :=
  (((List.range' start_idx (end_idx + 1 - start_idx)).filter
      (fun i => i < df_weekly.length)).find?
    (fun i => resistance ≤ (df_weekly.getD i default).close)).map
    (fun i => (df_weekly.getD i default).date)

/-- Tag recording which heuristic generated a candidate interval. -/
inductive CandSource where
  | pivotHigh
  | trailingHigh
  | pivotAnchored
  deriving Repr, DecidableEq

/-- A base record produced by `find_bases` (rounded fields as in the source). -/
structure Base where
  base_type : String
  start_date : ℤ
  depth_pct : ℚ
  duration_weeks : ℕ
  end_date : ℤ
  prior_high : ℚ
  base_low : ℚ
  resistance : ℚ
  buy_point_date : Option ℤ
  distance_pct : ℚ
  vcp_like : Bool
  is_current : Bool
  deriving Repr, DecidableEq

/-- Candidate generation in `find_bases` (sepa.py, lines 531–544): for each
pivot high, the interval reaching up to just before the next pivot high, or
to the last week when there is none. -/
def pivotHighCands (wk : List WeeklyBar) (pivot_highs : List ℕ) :
    List (ℕ × ℕ × CandSource) :=
  pivot_highs.filterMap (fun hi_idx =>
    let end_idx :=
      match pivot_highs.find? (fun i => hi_idx < i) with
      | some next_high_idx => next_high_idx - 1
      | none => wk.length - 1
    if end_idx ≤ hi_idx then none
    else some (hi_idx, end_idx, CandSource.pivotHigh))

/-- Candidate generation in `find_bases` (sepa.py, lines 546–559): the
trailing-high heuristic, appended to the candidates generated so far. -/
def addTrailingHigh (wk : List WeeklyBar) (pivot_highs : List ℕ)
    (fromHighs : List (ℕ × ℕ × CandSource)) : List (ℕ × ℕ × CandSource) :=
  let last_week_idx := wk.length - 1
  let lookback := min TRAILING_HIGH_LOOKBACK_WEEKS last_week_idx
  if 4 ≤ lookback then
    let start_idx := last_week_idx - lookback
    let segment_trail := sliceIncl wk start_idx last_week_idx
    let max_high_val := listMax (segment_trail.map (·.high))
    -- scan j from the end for the last bar within 1e-9 of the max high
    let trailing_hi_idx :=
      match ((List.range segment_trail.length).reverse).find?
          (fun j => decide (max_high_val - 1/1000000000 ≤
            (segment_trail.getD j default).high)) with
      | some j => start_idx + j
      | none => start_idx
    if trailing_hi_idx ∉ pivot_highs ∧ trailing_hi_idx + 4 ≤ last_week_idx ∧
        ¬(fromHighs.any (fun c =>
          c.1 = trailing_hi_idx ∧ c.2.2 = CandSource.trailingHigh)) then
      fromHighs ++ [(trailing_hi_idx, last_week_idx, CandSource.trailingHigh)]
    else fromHighs
  else fromHighs

/-- Candidate generation in `find_bases` (sepa.py, lines 561–574): the
pivot-anchored heuristic, appended to the candidates generated so far. -/
def addPivotAnchored (wk : List WeeklyBar) (pivot : Option PivotResult)
    (cands : List (ℕ × ℕ × CandSource)) : List (ℕ × ℕ × CandSource) :=
  let last_week_idx := wk.length - 1
  match pivot with
  | some pv =>
    if pv.forming then
      match pv.pivot_start_date with
      | some pivot_start =>
        let eligible := wk.filter (fun b => b.date < pivot_start)
        if ¬eligible.isEmpty ∧ 5 ≤ eligible.length then
          let last_10 := takeLast 10 eligible
          -- idxmax: the label (date) of the first row attaining the max high
          let maxHigh := listMax (last_10.map (·.high))
          match last_10.find? (fun b => b.high = maxHigh) with
          | some maxRow =>
            match wk.findIdx? (fun b => b.date = maxRow.date) with
            | some anchor_hi_idx =>
              if ¬(cands.any (fun c =>
                  c.1 = anchor_hi_idx ∧ c.2.2 = CandSource.pivotAnchored)) then
                cands ++
                  [(anchor_hi_idx, last_week_idx, CandSource.pivotAnchored)]
              else cands
            | none => cands
          | none => cands
        else cands
      | none => cands
    else cands
  | none => cands

/-- Candidate generation in `find_bases` (sepa.py, lines 531–574): pivot-high
intervals, then the trailing-high heuristic, then the pivot-anchored one. -/
def candidateStarts (wk : List WeeklyBar) (pivot_highs : List ℕ)
    (pivot : Option PivotResult) : List (ℕ × ℕ × CandSource) :=
  addPivotAnchored wk pivot
    (addTrailingHigh wk pivot_highs (pivotHighCands wk pivot_highs))

/-- Evaluation of one candidate interval in the main loop of `find_bases`
(sepa.py, lines 576–666): trend gate, shape features, classification,
resistance, buy point, distance and VCP flag. -/
def processCandidate (wk : List WeeklyBar) (dl : List SmaRow)
    (atr : List (Option ℚ)) (pivot_lows : List ℕ)
    (relax_uptrend_for_current_base : Bool)
    (c : ℕ × ℕ × CandSource) : Option Base :=
  let hi_idx := c.1
  let end_idx := c.2.1
  let last_week_idx := wk.length - 1
  let prior_high := (wk.getD hi_idx default).high
  let start_ts := (wk.getD hi_idx default).date
  let segment := sliceIncl wk hi_idx end_idx
  let base_low := listMin (segment.map (·.low))
  let depth_pct :=
    if 0 < prior_high then (prior_high - base_low) / prior_high * 100 else 0
  let duration_weeks := end_idx - hi_idx + 1
  let latest_close := ((segment.getLast?).map (·.close)).getD 0
  let is_current_base := end_idx = last_week_idx
  let lows_in_segment := pivot_lows.filter (fun i => hi_idx < i ∧ i ≤ end_idx)
  let two_lows := 2 ≤ lows_in_segment.length
  let has_handle :=
    if 2 ≤ lows_in_segment.length then
      let first_low := listMin (segment.map (·.low))
      let mid_range := base_low + (prior_high - base_low) / 2
      let second_low := (wk.getD (lows_in_segment.getD 1 0) default).low
      decide (mid_range < second_low ∧ first_low < second_low)
    else false
  let uptrend0 := uptrend_at_date dl start_ts
  let uptrend_ok :=
    if ¬uptrend0 ∧ is_current_base ∧ relax_uptrend_for_current_base ∧
        1 ≤ hi_idx then
      uptrend_at_date dl (wk.getD (hi_idx - 1) default).date
    else uptrend0
  if ¬uptrend_ok then none
  else
    let low1 := (lows_in_segment.head?).map
      (fun i => (wk.getD i default).low)
    let low2 := if 2 ≤ lows_in_segment.length then
        some ((wk.getD (lows_in_segment.getD 1 0) default).low)
      else none
    let prior_8wk_gain :=
      if 8 ≤ hi_idx then
        let close_8_ago := (wk.getD (hi_idx - 8) default).close
        if 0 < close_8_ago then some ((prior_high - close_8_ago) / close_8_ago)
        else none
      else none
    (_classify_base duration_weeks depth_pct prior_high base_low
        latest_close two_lows low1 low2 has_handle prior_8wk_gain
        is_current_base).map (fun base_type =>
      let end_ts := (wk.getD end_idx default).date
      let resistance := _resistance_for_base base_type segment prior_high wk
        hi_idx end_idx lows_in_segment has_handle
      let buy_point_date := _buy_point_date wk hi_idx end_idx resistance
      let distance_pct :=
        if buy_point_date.isSome ∨ resistance ≤ 0 then 0
        else (resistance - latest_close) / resistance * 100
      let vcp_like := _vcp_like segment lows_in_segment prior_high wk
        (dl.map (·.date)) atr start_ts end_ts
      { base_type := base_type,
        start_date := start_ts,
        depth_pct := round2 depth_pct,
        duration_weeks := duration_weeks,
        end_date := end_ts,
        prior_high := prior_high,
        base_low := base_low,
        resistance := round2 resistance,
        buy_point_date := buy_point_date,
        distance_pct := round2 distance_pct,
        vcp_like := vcp_like,
        is_current := false })

/-- Python `dict.__setitem__` on an insertion-ordered association list:
overwriting an existing key keeps its position, a new key is appended. -/
def setKey (l : List (ℤ × Base)) (k : ℤ) (v : Base) : List (ℤ × Base) :=
  match l with
  | [] => [(k, v)]
  | (k', v') :: t => if k' = k then (k, v) :: t else (k', v') :: setKey t k v

/-- Key lookup on the association list (`st in by_start`). -/
def lookupKey (l : List (ℤ × Base)) (k : ℤ) : Option Base :=
  match l with
  | [] => none
  | (k', v') :: t => if k' = k then some v' else lookupKey t k

/-- One iteration of the deduplication loop of `find_bases` (sepa.py, lines
671–680): set the `is_current` flag on the record, then store it under its
`start_date` unless that key is already taken by a record it must not
displace. -/
def dedupStep (last_week : ℤ) (by_start : List (ℤ × Base)) (b : Base) :
    List (ℤ × Base) :=
  let b' := { b with is_current := b.end_date = last_week }
  if (lookupKey by_start b'.start_date).isNone ∨ b'.is_current then
    setKey by_start b'.start_date b'
  else by_start

/-- Deduplication step of `find_bases` (sepa.py, lines 668–681): set the
`is_current` flag on every record, then keep one record per `start_date`,
letting a current record overwrite an earlier one with the same start. -/
def dedupBases (last_week : ℤ) (results : List Base) : List Base :=
  (results.foldl (dedupStep last_week) []).map (·.2)

/-- `find_bases` (sepa.py): detect SEPA bases from the weekly frame and the
daily frame with SMAs.  The 14-period ATR values that the source obtains from
the external `pandas_ta` library are supplied as the input list `atr`, aligned
row-for-row with `dl`. -/
def find_bases (wk : List WeeklyBar) (dl : List SmaRow)
    (atr : List (Option ℚ)) (pivot : Option PivotResult := none)
    (relax_uptrend_for_current_base : Bool := true) : List Base :=
  if wk.isEmpty ∨ wk.length < 4 then []
  else if dl.length < MIN_DAILY_BARS then []
  else
    let pivot_highs := pivotHighIdxs wk
    let pivot_lows := pivotLowIdxs wk
    let results := (candidateStarts wk pivot_highs pivot).filterMap
      (processCandidate wk dl atr pivot_lows relax_uptrend_for_current_base)
    let last_week := ((wk.getLast?).map (·.date)).getD 0
    dedupBases last_week results

-- ---------------------------------------------------------------------------
-- pivot_scan.py
-- ---------------------------------------------------------------------------

/-- Default distance_pct threshold for "near resistance" (pivot_scan.py). -/
def DEFAULT_DISTANCE_PCT_MAX : ℚ := 3

/-- The flat result dictionary produced by `compute_pivot_result`
(pivot_scan.py): identity, pivot-forming fields, base fields and leadership
fields. -/
structure BaseRow where
  symbol : String
  name : String
  pivot_forming : Bool
  pivot_days : Option ℕ
  pivot_range_pct : Option ℚ
  tight_closes : Bool
  pivot_high : Option ℚ
  in_base : Bool
  base_type : Option String
  resistance : Option ℚ
  distance_pct : Option ℚ
  buy_point_date : Option ℤ
  volume_at_pivot : Option String
  trend_template_score : Option ℤ
  rs_ratio : Option ℚ
  deriving Repr, DecidableEq

/-- A scan row: the result dictionary after `run_scan` added `quality_score`
and `buyable`. -/
structure ScanRow extends BaseRow where
  quality_score : ℚ
  buyable : Bool
  deriving Repr, DecidableEq

/-- `pivot_quality_score` (pivot_scan.py): 0 when no pivot is forming, else up
to 40 points for tightness, +15 tight closes, +20 in base, +10 volume dry-up,
and up to 15 points for breakout proximity when not yet triggered. -/
def pivot_quality_score (row : BaseRow) : ℚ :=
  if ¬row.pivot_forming then 0
  else
    let score : ℚ := 0
    -- Tighter pivot range: max 40 pts, 0% -> 40, 8% -> 0
    let score := score +
      (match row.pivot_range_pct with
       | some range_pct => max 0 (40 - 5 * range_pct)
       | none => 0)
    let score := if row.tight_closes then score + 15 else score
    let score := if row.in_base then score + 20 else score
    -- Volume dry-up at pivot
    let score := if row.volume_at_pivot = some "below" then score + 10
      else score
    -- Proximity to breakout: distance_pct 0 -> 15, 5 -> 0
    let score :=
      match row.distance_pct with
      | some dist =>
        if row.buy_point_date = none then
          if dist ≤ 0 then score + 15 else score + max 0 (15 - 3 * dist)
        else score
      | none => score
    round2 score

/-- `is_buyable` (pivot_scan.py): pivot forming, in base with a resistance,
not yet broken out, within the distance threshold, plus the optional
trend-template and relative-strength gates. -/
def is_buyable (row : BaseRow)
    (distance_pct_max : ℚ := DEFAULT_DISTANCE_PCT_MAX)
    (min_trend_score : Option ℤ := none)
    (require_rs_above_1 : Bool := false) : Bool :=
  if ¬row.pivot_forming then false
  else if ¬row.in_base ∨ row.resistance = none then false
  else if row.buy_point_date ≠ none then false
  else
    match row.distance_pct with
    | none => false
    | some dist =>
      if distance_pct_max < dist then false
      else if (match min_trend_score with
               | some m => decide (row.trend_template_score.getD 0 < m)
               | none => false) then false
      else
        let rs_bad : Bool :=
          match row.rs_ratio with
          | none => true
          | some rs => decide (rs < 1)
        if require_rs_above_1 ∧ rs_bad then false
        else true

/-- One entry of the symbol universe passed to `run_scan`: either a plain
string or a dict with optional `symbol` / `name` values. -/
inductive SymEntry where
  | str (s : String)
  | dict (symbol : Option String) (name : Option String)
  deriving Repr, DecidableEq

/-- Python `str.strip()`: drop leading and trailing whitespace.  (Defined on
the character list so that it evaluates by kernel reduction.) -/
def pyStrip (s : String) : String :=
  ⟨((s.data.dropWhile (·.isWhitespace)).reverse.dropWhile
    (·.isWhitespace)).reverse⟩

/-- `(x or "").strip()`. -/
def orEmptyStrip (s : Option String) : String := pyStrip (s.getD "")

/-- Symbol list extracted by `run_scan`'s first pass (empty symbols dropped). -/
def symList (symbols : List SymEntry) : List String :=
  symbols.filterMap (fun e =>
    match e with
    | SymEntry.str s =>
      let sym := pyStrip s
      if sym ≠ "" then some sym else none
    | SymEntry.dict s _ =>
      let sym := orEmptyStrip s
      if sym ≠ "" then some sym else none)

/-- `name_by_symbol` built by `run_scan`'s first pass (later entries
overwrite earlier ones, as in a Python dict). -/
def nameBySymbol (symbols : List SymEntry) : String → Option String :=
  symbols.foldl (fun acc e =>
    match e with
    | SymEntry.str _ => acc
    | SymEntry.dict s n =>
      let sym := orEmptyStrip s
      if sym ≠ "" then fun q => if q = sym then some (orEmptyStrip n) else acc q
      else acc) (fun _ => none)

/-- The safe all-null/false row built in `run_scan`'s `except` branch. -/
def safeRow (symbol name : String) : ScanRow :=
  { symbol := symbol, name := name,
    pivot_forming := false, pivot_days := none, pivot_range_pct := none,
    tight_closes := false, pivot_high := none, in_base := false,
    base_type := none, resistance := none, distance_pct := none,
    buy_point_date := none, volume_at_pivot := none,
    trend_template_score := none, rs_ratio := none,
    quality_score := 0, buyable := false }

/-- `run_scan` (pivot_scan.py).  The per-symbol computation
`compute_pivot_result` performs network I/O and may raise; it is modelled by
the oracle `compute`, which receives the symbol and `name_by_symbol.get(sym)`
and either returns the flat result row or fails.  A failure is mapped to the
safe row and the remaining symbols are still processed. -/
def run_scan (symbols : List SymEntry)
    (compute : String → Option String → Except String BaseRow)
    (distance_pct_max : ℚ := DEFAULT_DISTANCE_PCT_MAX)
    (min_trend_score : Option ℤ := none)
    (require_rs_above_1 : Bool := false) : List ScanRow :=
  let names := nameBySymbol symbols
  (symList symbols).map (fun symbol =>
    match compute symbol (names symbol) with
    | Except.ok row =>
      { toBaseRow := row,
        quality_score := pivot_quality_score row,
        buyable := is_buyable row distance_pct_max min_trend_score
          require_rs_above_1 }
    | Except.error _ => safeRow symbol ((names symbol).getD ""))

-- ---------------------------------------------------------------------------
-- Helper lemmas
-- ---------------------------------------------------------------------------

theorem foldl_max_mem (t : List ℚ) : ∀ a : ℚ, t.foldl max a = a ∨ t.foldl max a ∈ t := by
  induction t with
  | nil => intro a; left; rfl
  | cons b t ih =>
    intro a
    rcases ih (max a b) with h | h
    · rcases max_choice a b with hm | hm
      · left; rw [List.foldl_cons, h, hm]
      · right; rw [List.foldl_cons, h, hm]; exact List.mem_cons_self b t
    · right; rw [List.foldl_cons]; exact List.mem_cons_of_mem b h

theorem le_foldl_max (t : List ℚ) : ∀ a : ℚ, a ≤ t.foldl max a := by
  induction t with
  | nil => intro a; exact le_refl a
  | cons b t ih =>
    intro a
    rw [List.foldl_cons]
    exact le_trans (le_max_left a b) (ih (max a b))

theorem foldl_max_le_of_mem (t : List ℚ) :
    ∀ a x : ℚ, x ∈ t → x ≤ t.foldl max a := by
  induction t with
  | nil => intro a x hx; cases hx
  | cons b t ih =>
    intro a x hx
    rw [List.foldl_cons]
    rcases List.mem_cons.mp hx with rfl | hx'
    · exact le_trans (le_max_right a x) (le_foldl_max t (max a x))
    · exact ih (max a b) x hx'

theorem listMax_mem (l : List ℚ) (hl : l ≠ []) : listMax l ∈ l := by
  match l with
  | [] => exact absurd rfl hl
  | h :: t =>
    simp only [listMax]
    rcases foldl_max_mem t h with h' | h'
    · rw [h']; exact List.mem_cons_self h t
    · exact List.mem_cons_of_mem h h'

theorem le_listMax (l : List ℚ) (x : ℚ) (hx : x ∈ l) : x ≤ listMax l := by
  match l with
  | h :: t =>
    simp only [listMax]
    rcases List.mem_cons.mp hx with rfl | hx'
    · exact le_foldl_max t x
    · exact foldl_max_le_of_mem t h x hx'

theorem foldl_min_mem (t : List ℚ) : ∀ a : ℚ, t.foldl min a = a ∨ t.foldl min a ∈ t := by
  induction t with
  | nil => intro a; left; rfl
  | cons b t ih =>
    intro a
    rcases ih (min a b) with h | h
    · rcases min_choice a b with hm | hm
      · left; rw [List.foldl_cons, h, hm]
      · right; rw [List.foldl_cons, h, hm]; exact List.mem_cons_self b t
    · right; rw [List.foldl_cons]; exact List.mem_cons_of_mem b h

theorem foldl_min_le (t : List ℚ) : ∀ a : ℚ, t.foldl min a ≤ a := by
  induction t with
  | nil => intro a; exact le_refl a
  | cons b t ih =>
    intro a
    rw [List.foldl_cons]
    exact le_trans (ih (min a b)) (min_le_left a b)

theorem foldl_min_le_of_mem (t : List ℚ) :
    ∀ a x : ℚ, x ∈ t → t.foldl min a ≤ x := by
  induction t with
  | nil => intro a x hx; cases hx
  | cons b t ih =>
    intro a x hx
    rw [List.foldl_cons]
    rcases List.mem_cons.mp hx with rfl | hx'
    · exact le_trans (foldl_min_le t (min a x)) (min_le_right a x)
    · exact ih (min a b) x hx'

theorem listMin_mem (l : List ℚ) (hl : l ≠ []) : listMin l ∈ l := by
  match l with
  | [] => exact absurd rfl hl
  | h :: t =>
    simp only [listMin]
    rcases foldl_min_mem t h with h' | h'
    · rw [h']; exact List.mem_cons_self h t
    · exact List.mem_cons_of_mem h h'

theorem listMin_le (l : List ℚ) (x : ℚ) (hx : x ∈ l) : listMin l ≤ x := by
  match l with
  | h :: t =>
    simp only [listMin]
    rcases List.mem_cons.mp hx with rfl | hx'
    · exact foldl_min_le t x
    · exact foldl_min_le_of_mem t h x hx'

/-- `roundHalfEven` of an integer is that integer. -/
theorem roundHalfEven_intCast (k : ℤ) : roundHalfEven (k : ℚ) = k := by
  unfold roundHalfEven
  rw [← Rat.floor_def, Int.floor_intCast]
  norm_num

/-- `round2` is the identity on exact multiples of `1/100`. -/
theorem round2_eq_self (x : ℚ) (h : ∃ k : ℤ, x = (k : ℚ) / 100) :
    round2 x = x := by
  obtain ⟨k, rfl⟩ := h
  unfold round2
  have h100 : (k : ℚ) / 100 * 100 = (k : ℚ) := by ring
  rw [h100, roundHalfEven_intCast]

/-- `roundHalfEven` never exceeds an integer bound that its argument obeys. -/
theorem roundHalfEven_le {x : ℚ} {C : ℤ} (h : x ≤ (C : ℚ)) :
    roundHalfEven x ≤ C := by
  have hfl : ⌊x⌋ ≤ C := by
    have h' := Int.floor_le_floor h
    simpa using h'
  have hstep : ¬(x - (⌊x⌋ : ℚ) < 1/2) → ⌊x⌋ + 1 ≤ C := by
    intro h1
    have h1' : 1/2 ≤ x - (⌊x⌋ : ℚ) := not_lt.mp h1
    rcases lt_or_eq_of_le hfl with h' | h'
    · omega
    · exfalso
      have hx : x - (⌊x⌋ : ℚ) ≤ 0 := by
        rw [h']
        have : x ≤ ((C : ℤ) : ℚ) := h
        linarith
      linarith
  simp only [roundHalfEven, ← Rat.floor_def]
  split_ifs with h1 h2 h3
  · exact hfl
  · exact hstep h1
  · exact hfl
  · exact hstep h1

/-- `roundHalfEven` never undercuts an integer bound that its argument obeys. -/
theorem le_roundHalfEven {x : ℚ} {C : ℤ} (h : (C : ℚ) ≤ x) :
    C ≤ roundHalfEven x := by
  have hfl : C ≤ ⌊x⌋ := Int.le_floor.mpr h
  simp only [roundHalfEven, ← Rat.floor_def]
  split_ifs with h1 h2 h3
  · exact hfl
  · omega
  · exact hfl
  · omega

theorem round2_nonneg {x : ℚ} (h : 0 ≤ x) : 0 ≤ round2 x := by
  unfold round2
  have h0 : (0 : ℤ) ≤ roundHalfEven (x * 100) :=
    le_roundHalfEven (by push_cast; linarith)
  have h1 : (0 : ℚ) ≤ (roundHalfEven (x * 100) : ℚ) := by exact_mod_cast h0
  linarith

theorem round2_le_100 {x : ℚ} (h : x ≤ 100) : round2 x ≤ 100 := by
  unfold round2
  have h0 : roundHalfEven (x * 100) ≤ (10000 : ℤ) :=
    roundHalfEven_le (by push_cast; linarith)
  have h1 : (roundHalfEven (x * 100) : ℚ) ≤ 10000 := by exact_mod_cast h0
  linarith

theorem round2_ge_cent {x : ℚ} (h : 1/100 ≤ x) : 1/100 ≤ round2 x := by
  unfold round2
  have h0 : (1 : ℤ) ≤ roundHalfEven (x * 100) :=
    le_roundHalfEven (by push_cast; linarith)
  have h1 : (1 : ℚ) ≤ (roundHalfEven (x * 100) : ℚ) := by exact_mod_cast h0
  linarith

-- ---------------------------------------------------------------------------
-- C1
-- ---------------------------------------------------------------------------

/-- C1 (counterexample): in a 10-week interval with two pivot lows at 100.0
and 103.0, prior high 110.0 (difference within the 5% tolerance) and no
handle, the classifier does NOT assign "Double bottom": the cup-family branch
(duration 6–52 weeks, no handle) fires first and yields
"Cup completion cheat". -/
theorem c1_counterexample :
    |(100 : ℚ) - 103| / 110 ≤ DOUBLE_BOTTOM_LOW_TOLERANCE ∧
    _classify_base 10 (100/11) 110 100 108 true (some 100) (some 103) false
      none false = some "Cup completion cheat" ∧
    _classify_base 10 (100/11) 110 100 108 true (some 100) (some 103) false
      none false ≠ some "Double bottom" := by
  have h : _classify_base 10 (100/11) 110 100 108 true (some 100) (some 103)
      false none false = some "Cup completion cheat" := by decide
  refine ⟨?_, h, by rw [h]; simp⟩
  rw [show |(100 : ℚ) - 103| = 3 by norm_num]
  norm_num [DOUBLE_BOTTOM_LOW_TOLERANCE]

/-- C1 (amended): for a candidate base whose duration lies beyond the
cup-family range, i.e. 53–65 weeks, containing two pivot lows at 100.0 and
103.0 with a prior high of 110.0 (difference 2.7% of the prior high, within
the 5% tolerance) and no handle, the classifier assigns "Double bottom" and
the resistance for a "Double bottom" base is the maximum weekly High between
the two pivot lows. -/
theorem c1_amended :
    (∀ (d : ℕ) (depth base_low latest_close : ℚ) (g : Option ℚ) (cur : Bool),
      53 ≤ d → d ≤ 65 →
      _classify_base d depth 110 base_low latest_close true (some 100)
        (some 103) false g cur = some "Double bottom") ∧
    (∀ (segment : List WeeklyBar) (prior_high : ℚ) (wk : List WeeklyBar)
      (hi_idx end_idx i0 i1 : ℕ) (rest : List ℕ),
      _resistance_for_base "Double bottom" segment prior_high wk hi_idx
        end_idx (i0 :: i1 :: rest) false
        = listMax ((sliceIncl wk i0 i1).map (·.high))) := by
  constructor
  · intro d depth base_low latest_close g cur h53 h65
    have habs : |(100 : ℚ) - 103| = 3 := by norm_num
    simp only [_classify_base, POWER_PLAY_WEEKS, DARVAS_WEEKS, CUP_CHEAT_WEEKS,
      CUP_HANDLE_WEEKS, DOUBLE_BOTTOM_WEEKS, CUP_CHEAT_MIN_WEEKS_CURRENT,
      DOUBLE_BOTTOM_LOW_TOLERANCE, Bool.false_eq_true, and_false, if_false]
    rw [if_neg (by omega : ¬(2 ≤ d ∧ d ≤ 6 ∧
      (match g with
       | some g => decide (POWER_PLAY_MIN_RUNUP ≤ g)
       | none => false) = true))]
    rw [if_neg (by
      rintro ⟨-, h2, -⟩
      omega)]
    rw [if_neg (by
      rintro ⟨-, h2, -⟩
      omega)]
    rw [if_pos ?_]
    refine ⟨by omega, by omega, trivial, ?_⟩
    simp only [decide_eq_true_eq]
    rw [habs]
    norm_num
  · intro segment prior_high wk hi_idx end_idx i0 i1 rest
    simp [_resistance_for_base]

/-- C1 (amended, witness): the amended claim at duration 53 and a concrete
4-week weekly series. -/
theorem c1_amended_witness :
    _classify_base 53 (100/11) 110 100 108 true (some 100) (some 103) false
      none false = some "Double bottom" ∧
    _resistance_for_base "Double bottom"
      [⟨0, 1, 1, 1, 1, 1⟩] 110
      [⟨0, 110, 110, 100, 105, 1⟩, ⟨7, 104, 106, 100, 104, 1⟩,
       ⟨14, 104, 107, 103, 105, 1⟩, ⟨21, 105, 108, 104, 107, 1⟩]
      0 3 [1, 2] false
      = listMax ((sliceIncl
        [⟨0, 110, 110, 100, 105, 1⟩, ⟨7, 104, 106, 100, 104, 1⟩,
         ⟨14, 104, 107, 103, 105, 1⟩, ⟨21, 105, 108, 104, 107, 1⟩] 1 2).map
          (·.high)) := by
  constructor
  · exact c1_amended.1 53 (100/11) 100 108 none false (by norm_num)
      (by norm_num)
  · exact c1_amended.2 _ 110 _ 0 3 1 2 []

-- ---------------------------------------------------------------------------
-- C10
-- ---------------------------------------------------------------------------

/-- C10: `find_bases` returns the empty list, without raising, whenever the
weekly series has fewer than 4 bars or the daily series has fewer than 252
bars (`MIN_DAILY_BARS`). -/
theorem c10_insufficient_data (wk : List WeeklyBar) (dl : List SmaRow)
    (atr : List (Option ℚ)) (pv : Option PivotResult) (relax : Bool)
    (h : wk.length < 4 ∨ dl.length < MIN_DAILY_BARS) :
    find_bases wk dl atr pv relax = [] := by
  unfold find_bases
  rcases h with h | h
  · rw [if_pos (Or.inr h)]
  · by_cases h4 : wk.isEmpty = true ∨ wk.length < 4
    · rw [if_pos h4]
    · rw [if_neg h4, if_pos h]

/-- C10 (witness): a daily series with 252 bars whose weekly aggregation has
only 3 bars yields no bases. -/
theorem c10_insufficient_data_witness :
    MIN_DAILY_BARS ≤ (List.replicate 252 (default : SmaRow)).length ∧
    ([⟨0, 1, 2, 1, 1, 1⟩, ⟨7, 1, 2, 1, 1, 1⟩, ⟨14, 1, 2, 1, 1, 1⟩] :
      List WeeklyBar).length < 4 ∧
    find_bases [⟨0, 1, 2, 1, 1, 1⟩, ⟨7, 1, 2, 1, 1, 1⟩, ⟨14, 1, 2, 1, 1, 1⟩]
      (List.replicate 252 (default : SmaRow)) [] none true = [] := by
  refine ⟨by rw [List.length_replicate]; norm_num [MIN_DAILY_BARS], by decide, ?_⟩
  exact c10_insufficient_data _ _ [] none true (Or.inl (by decide))

-- ---------------------------------------------------------------------------
-- C4
-- ---------------------------------------------------------------------------

/-- A rational that is an exact multiple of `1/100` (the shape of every
rounded percentage field in a scan row). -/
def Cent (x : ℚ) : Prop := ∃ k : ℤ, x = (k : ℚ) / 100

theorem Cent.add {x y : ℚ} (hx : Cent x) (hy : Cent y) : Cent (x + y) := by
  obtain ⟨a, rfl⟩ := hx
  obtain ⟨b, rfl⟩ := hy
  exact ⟨a + b, by push_cast; ring⟩

theorem Cent.max0 {x : ℚ} (hx : Cent x) : Cent (max 0 x) := by
  obtain ⟨a, rfl⟩ := hx
  refine ⟨max 0 a, ?_⟩
  rcases le_total (0 : ℤ) a with h | h
  · rw [max_eq_right h, max_eq_right]
    positivity
  · rw [max_eq_left h, max_eq_left, Int.cast_zero, zero_div]
    apply div_nonpos_of_nonpos_of_nonneg _ (by norm_num)
    exact_mod_cast h

theorem cent_num (n : ℤ) : Cent ((n : ℚ)) := ⟨n * 100, by push_cast; ring⟩

theorem cent_zero : Cent (0 : ℚ) := ⟨0, by norm_num⟩

theorem cent_ten : Cent (10 : ℚ) := ⟨1000, by norm_num⟩

theorem cent_fifteen : Cent (15 : ℚ) := ⟨1500, by norm_num⟩

theorem cent_twenty : Cent (20 : ℚ) := ⟨2000, by norm_num⟩

theorem cent_40_sub_5 {x : ℚ} (hx : Cent x) : Cent (40 - 5 * x) := by
  obtain ⟨a, rfl⟩ := hx
  exact ⟨4000 - 5 * a, by push_cast; ring⟩

theorem cent_15_sub_3 {x : ℚ} (hx : Cent x) : Cent (15 - 3 * x) := by
  obtain ⟨b, rfl⟩ := hx
  exact ⟨1500 - 3 * b, by push_cast; ring⟩

theorem Cent.round2 {x : ℚ} (hx : Cent x) : TurtleRpm.round2 x = x :=
  round2_eq_self x hx

/-- Auxiliary: `if c then x + a else x = x + if c then a else 0`. -/
theorem ite_add_shift (c : Prop) [Decidable c] (x a : ℚ) :
    (if c then x + a else x) = x + (if c then a else 0) := by
  split_ifs <;> ring

/-- Auxiliary: `if c then x + a else x + b = x + if c then a else b`. -/
theorem ite_add_shift2 (c : Prop) [Decidable c] (x a b : ℚ) :
    (if c then x + a else x + b) = x + (if c then a else b) := by
  split_ifs <;> ring

/-- C4: the quality score is 0 when no pivot is forming; otherwise (for the
exact two-decimal percentage fields a scan row carries) it is
`max(0, 40 − 5·range_pct)` plus 15 for tight closes, plus 20 for in-base,
plus 10 for below-average volume, plus — only when `buy_point_date` is null —
15 when `distance_pct ≤ 0` else `max(0, 15 − 3·distance_pct)`; and for any
row whose range percentage is non-negative the score lies in `[0, 100]`. -/
theorem c4_quality_score :
    (∀ row : BaseRow, row.pivot_forming = false → pivot_quality_score row = 0) ∧
    (∀ (row : BaseRow) (r : ℚ), row.pivot_forming = true →
      row.pivot_range_pct = some r → Cent r →
      (∀ d, row.distance_pct = some d → Cent d) →
      pivot_quality_score row =
        max 0 (40 - 5 * r) + (if row.tight_closes then 15 else 0) +
        (if row.in_base then 20 else 0) +
        (if row.volume_at_pivot = some "below" then 10 else 0) +
        (if row.buy_point_date = none then
          (match row.distance_pct with
           | some d => if d ≤ 0 then 15 else max 0 (15 - 3 * d)
           | none => 0)
         else 0)) ∧
    (∀ row : BaseRow, (∀ r, row.pivot_range_pct = some r → 0 ≤ r) →
      0 ≤ pivot_quality_score row ∧ pivot_quality_score row ≤ 100) := by
  refine ⟨?_, ?_, ?_⟩
  · intro row h
    simp [pivot_quality_score, h]
  · intro row r hf hr hcr hcd
    simp only [pivot_quality_score, hf, hr, not_true_eq_false, if_false]
    rcases hdp : row.distance_pct with _ | d
    all_goals simp only [hdp]
    all_goals split_ifs
    all_goals refine Eq.trans (Cent.round2 ?_) (by ring)
    all_goals repeat' apply Cent.add
    all_goals repeat' apply Cent.max0
    all_goals first
      | exact cent_zero
      | exact cent_ten
      | exact cent_fifteen
      | exact cent_twenty
      | exact cent_40_sub_5 hcr
      | exact cent_15_sub_3 (hcd d hdp)
  · intro row hr0
    by_cases hf : row.pivot_forming = true
    · simp only [pivot_quality_score, hf, not_true_eq_false, if_false]
      rcases hrp : row.pivot_range_pct with _ | r <;>
        rcases hdp : row.distance_pct with _ | d <;>
        simp only [hrp, hdp, ite_add_shift2, ite_add_shift]
      · have hB : 0 ≤ (if row.tight_closes = true then (15:ℚ) else 0) ∧
            (if row.tight_closes = true then (15:ℚ) else 0) ≤ 15 := by
          split_ifs <;> norm_num
        have hC : 0 ≤ (if row.in_base = true then (20:ℚ) else 0) ∧
            (if row.in_base = true then (20:ℚ) else 0) ≤ 20 := by
          split_ifs <;> norm_num
        have hD : 0 ≤ (if row.volume_at_pivot = some "below" then (10:ℚ) else 0) ∧
            (if row.volume_at_pivot = some "below" then (10:ℚ) else 0) ≤ 10 := by
          split_ifs <;> norm_num
        exact ⟨round2_nonneg (by linarith [hB.1, hC.1, hD.1]),
          round2_le_100 (by linarith [hB.2, hC.2, hD.2])⟩
      · have hB : 0 ≤ (if row.tight_closes = true then (15:ℚ) else 0) ∧
            (if row.tight_closes = true then (15:ℚ) else 0) ≤ 15 := by
          split_ifs <;> norm_num
        have hC : 0 ≤ (if row.in_base = true then (20:ℚ) else 0) ∧
            (if row.in_base = true then (20:ℚ) else 0) ≤ 20 := by
          split_ifs <;> norm_num
        have hD : 0 ≤ (if row.volume_at_pivot = some "below" then (10:ℚ) else 0) ∧
            (if row.volume_at_pivot = some "below" then (10:ℚ) else 0) ≤ 10 := by
          split_ifs <;> norm_num
        have hE : 0 ≤ (if row.buy_point_date = none then
              (if d ≤ 0 then (15:ℚ) else max 0 (15 - 3 * d)) else 0) ∧
            (if row.buy_point_date = none then
              (if d ≤ 0 then (15:ℚ) else max 0 (15 - 3 * d)) else 0) ≤ 15 := by
          split_ifs with h1 h2
          · norm_num
          · exact ⟨le_max_left 0 _,
              max_le (by norm_num) (by linarith [not_le.mp h2])⟩
          · norm_num
        exact ⟨round2_nonneg (by linarith [hB.1, hC.1, hD.1, hE.1]),
          round2_le_100 (by linarith [hB.2, hC.2, hD.2, hE.2])⟩
      · have hA : 0 ≤ max (0:ℚ) (40 - 5 * r) ∧ max (0:ℚ) (40 - 5 * r) ≤ 40 :=
          ⟨le_max_left 0 _, max_le (by norm_num) (by linarith [hr0 r hrp])⟩
        have hB : 0 ≤ (if row.tight_closes = true then (15:ℚ) else 0) ∧
            (if row.tight_closes = true then (15:ℚ) else 0) ≤ 15 := by
          split_ifs <;> norm_num
        have hC : 0 ≤ (if row.in_base = true then (20:ℚ) else 0) ∧
            (if row.in_base = true then (20:ℚ) else 0) ≤ 20 := by
          split_ifs <;> norm_num
        have hD : 0 ≤ (if row.volume_at_pivot = some "below" then (10:ℚ) else 0) ∧
            (if row.volume_at_pivot = some "below" then (10:ℚ) else 0) ≤ 10 := by
          split_ifs <;> norm_num
        exact ⟨round2_nonneg (by linarith [hA.1, hB.1, hC.1, hD.1]),
          round2_le_100 (by linarith [hA.2, hB.2, hC.2, hD.2])⟩
      · have hA : 0 ≤ max (0:ℚ) (40 - 5 * r) ∧ max (0:ℚ) (40 - 5 * r) ≤ 40 :=
          ⟨le_max_left 0 _, max_le (by norm_num) (by linarith [hr0 r hrp])⟩
        have hB : 0 ≤ (if row.tight_closes = true then (15:ℚ) else 0) ∧
            (if row.tight_closes = true then (15:ℚ) else 0) ≤ 15 := by
          split_ifs <;> norm_num
        have hC : 0 ≤ (if row.in_base = true then (20:ℚ) else 0) ∧
            (if row.in_base = true then (20:ℚ) else 0) ≤ 20 := by
          split_ifs <;> norm_num
        have hD : 0 ≤ (if row.volume_at_pivot = some "below" then (10:ℚ) else 0) ∧
            (if row.volume_at_pivot = some "below" then (10:ℚ) else 0) ≤ 10 := by
          split_ifs <;> norm_num
        have hE : 0 ≤ (if row.buy_point_date = none then
              (if d ≤ 0 then (15:ℚ) else max 0 (15 - 3 * d)) else 0) ∧
            (if row.buy_point_date = none then
              (if d ≤ 0 then (15:ℚ) else max 0 (15 - 3 * d)) else 0) ≤ 15 := by
          split_ifs with h1 h2
          · norm_num
          · exact ⟨le_max_left 0 _,
              max_le (by norm_num) (by linarith [not_le.mp h2])⟩
          · norm_num
        exact ⟨round2_nonneg (by linarith [hA.1, hB.1, hC.1, hD.1, hE.1]),
          round2_le_100 (by linarith [hA.2, hB.2, hC.2, hD.2, hE.2])⟩
    · have hf' : row.pivot_forming = false := by
        revert hf
        cases row.pivot_forming <;> simp
      simp [pivot_quality_score, hf']

/-- A concrete scan row: forming pivot with range 2%, tight closes, in base,
below-average volume, 1% from the breakout, not yet triggered. -/
def c4row : BaseRow :=
  { symbol := "TST", name := "Test", pivot_forming := true,
    pivot_days := some 5, pivot_range_pct := some 2, tight_closes := true,
    pivot_high := some 100, in_base := true, base_type := some "Darvas box",
    resistance := some 100, distance_pct := some 1, buy_point_date := none,
    volume_at_pivot := some "below", trend_template_score := none,
    rs_ratio := none }

/-- C4 (witness): the formula and the bounds instantiated on a concrete row
(the formula evaluates to 30 + 15 + 20 + 10 + 12 = 87). -/
theorem c4_quality_score_witness :
    pivot_quality_score c4row = 87 ∧
    0 ≤ pivot_quality_score c4row ∧ pivot_quality_score c4row ≤ 100 := by
  have hb := c4_quality_score.2.2 c4row (by
    intro r hr
    have : (2 : ℚ) = r := Option.some.inj hr
    rw [← this]
    norm_num)
  have he := c4_quality_score.2.1 c4row 2 rfl rfl ⟨200, by norm_num⟩ (by
    intro d hd
    have : (1 : ℚ) = d := Option.some.inj hd
    rw [← this]
    exact ⟨100, by norm_num⟩)
  refine ⟨?_, hb⟩
  rw [he]
  norm_num [c4row]

-- ---------------------------------------------------------------------------
-- C5
-- ---------------------------------------------------------------------------

/-- The (trimmed) symbol carried by a universe entry. -/
def entrySymbol : SymEntry → String
  | SymEntry.str s => pyStrip s
  | SymEntry.dict s _ => orEmptyStrip s

theorem symList_length_eq_countP (symbols : List SymEntry) :
    (symList symbols).length =
      symbols.countP (fun e => entrySymbol e ≠ "") := by
  induction symbols with
  | nil => rfl
  | cons e t ih =>
    rw [List.countP_cons]
    cases e with
    | str s =>
      by_cases hs : pyStrip s = ""
      · simp [symList, List.filterMap_cons, entrySymbol, hs] at ih ⊢
        exact ih
      · simp [symList, List.filterMap_cons, entrySymbol, hs] at ih ⊢
        omega
    | dict s n =>
      by_cases hs : orEmptyStrip s = ""
      · simp [symList, List.filterMap_cons, entrySymbol, hs] at ih ⊢
        exact ih
      · simp [symList, List.filterMap_cons, entrySymbol, hs] at ih ⊢
        omega

/-- C5: `run_scan` yields exactly one row per non-empty symbol, and a failing
per-symbol computation produces the safe all-null row (quality 0, not
buyable) in that symbol's position while every other symbol is still
processed. -/
theorem c5_run_scan (symbols : List SymEntry)
    (compute : String → Option String → Except String BaseRow)
    (dmax : ℚ) (mts : Option ℤ) (rrs : Bool) :
    (run_scan symbols compute dmax mts rrs).length =
      symbols.countP (fun e => entrySymbol e ≠ "") ∧
    (∀ (k : ℕ) (sym : String), (symList symbols)[k]? = some sym →
      (∀ e : String, compute sym (nameBySymbol symbols sym) =
          Except.error e →
        (run_scan symbols compute dmax mts rrs)[k]? =
          some (safeRow sym ((nameBySymbol symbols sym).getD ""))) ∧
      (∀ row : BaseRow, compute sym (nameBySymbol symbols sym) =
          Except.ok row →
        (run_scan symbols compute dmax mts rrs)[k]? =
          some { toBaseRow := row,
                 quality_score := pivot_quality_score row,
                 buyable := is_buyable row dmax mts rrs })) := by
  constructor
  · rw [run_scan, List.length_map, symList_length_eq_countP]
  · intro k sym hk
    constructor
    · intro e herr
      rw [run_scan, List.getElem?_map, hk]
      simp [herr]
    · intro row hok
      rw [run_scan, List.getElem?_map, hk]
      simp [hok]

/-- C5 (witness): a two-symbol universe where the first symbol's computation
fails and the second succeeds; the failing symbol degrades to the safe row
and the second is still processed. -/
theorem c5_run_scan_witness :
    (run_scan [SymEntry.str " AAPL ", SymEntry.dict (some "MSFT")
        (some "Microsoft")]
      (fun s _ => if s = "AAPL" then Except.error "network down"
        else Except.ok c4row) 3 none false).length = 2 ∧
    (run_scan [SymEntry.str " AAPL ", SymEntry.dict (some "MSFT")
        (some "Microsoft")]
      (fun s _ => if s = "AAPL" then Except.error "network down"
        else Except.ok c4row) 3 none false)[0]? =
      some (safeRow "AAPL" "") := by
  constructor
  · rw [(c5_run_scan _ _ 3 none false).1]
    decide
  · have h := ((c5_run_scan [SymEntry.str " AAPL ", SymEntry.dict (some "MSFT")
        (some "Microsoft")]
      (fun s _ => if s = "AAPL" then Except.error "network down"
        else Except.ok c4row) 3 none false).2 0 "AAPL" (by decide)).1
      "network down" (by rfl)
    rw [h]
    decide

-- ---------------------------------------------------------------------------
-- C2
-- ---------------------------------------------------------------------------

theorem takeLast_length {α : Type} (n : ℕ) (l : List α) :
    (takeLast n l).length = min n l.length := by
  simp [takeLast]
  omega

theorem takeLast_takeLast {α : Type} (L M : ℕ) (l : List α) (h : L ≤ M) :
    takeLast L (takeLast M l) = takeLast L l := by
  simp only [takeLast, List.drop_drop]
  congr 1
  rw [List.length_drop]
  omega

theorem takeLast_subset {α : Type} (n : ℕ) (l : List α) :
    ∀ x ∈ takeLast n l, x ∈ l := by
  intro x hx
  exact List.drop_subset _ l hx

/-- `find?` on a strictly descending list returns the greatest element
satisfying the predicate. -/
theorem find?_desc_greatest {l : List ℕ} (hl : l.Pairwise (· > ·))
    (p : ℕ → Bool) {x : ℕ} (hfind : l.find? p = some x) :
    x ∈ l ∧ p x = true ∧ ∀ y ∈ l, p y = true → y ≤ x := by
  induction l with
  | nil => cases hfind
  | cons a t ih =>
    rcases List.pairwise_cons.mp hl with ⟨ha, ht⟩
    by_cases hpa : p a = true
    · rw [List.find?_cons_of_pos _ hpa] at hfind
      cases hfind
      refine ⟨List.mem_cons_self _ _, hpa, ?_⟩
      intro y hy hpy
      rcases List.mem_cons.mp hy with rfl | hy'
      · exact le_refl y
      · exact le_of_lt (ha y hy')
    · rw [List.find?_cons_of_neg _ hpa] at hfind
      obtain ⟨hmem, hpx, hmax⟩ := ih ht hfind
      refine ⟨List.mem_cons_of_mem a hmem, hpx, ?_⟩
      intro y hy hpy
      rcases List.mem_cons.mp hy with rfl | hy'
      · exact absurd hpy hpa
      · exact hmax y hy' hpy

theorem pivotWindowLengths_mem (n minDays maxDays L : ℕ) :
    L ∈ pivotWindowLengths n minDays maxDays ↔
      minDays ≤ L ∧ L ≤ min n maxDays := by
  simp only [pivotWindowLengths, List.mem_reverse, List.mem_filter,
    List.mem_range, decide_eq_true_eq]
  omega

theorem pivotWindowLengths_desc (n minDays maxDays : ℕ) :
    (pivotWindowLengths n minDays maxDays).Pairwise (· > ·) := by
  simp only [pivotWindowLengths, List.pairwise_reverse]
  exact List.Pairwise.filter _ (List.pairwise_lt_range _)

/-- The range percentage of the trailing `L`-bar window, as in the spec:
`(max high − min low) / max high × 100`. -/
def pivotRangePct (df : List DailyBar) (L : ℕ) : ℚ :=
  let window := takeLast L df
  (listMax (window.map (·.high)) - listMin (window.map (·.low))) /
    listMax (window.map (·.high)) * 100

/-- A window length qualifies (claim C2): between 3 and 10, available in the
series, and trailing range percentage strictly below the 8% threshold. -/
def QualWindow (df : List DailyBar) (L : ℕ) : Prop :=
  3 ≤ L ∧ L ≤ min 10 df.length ∧ pivotRangePct df L < 8

theorem qualWindow_iff_qualifies (df : List DailyBar)
    (hpos : ∀ b ∈ df, 0 < b.high) (h3 : 3 ≤ df.length) (L : ℕ)
    (hL : L ∈ pivotWindowLengths (takeLast 10 df).length 3 10) :
    pivotWindowQualifies (takeLast 10 df) 8 L = true ↔ QualWindow df L := by
  rw [pivotWindowLengths_mem, takeLast_length] at hL
  have hL10 : L ≤ 10 := le_trans hL.2 (by omega)
  have hwindow : takeLast L (takeLast 10 df) = takeLast L df :=
    takeLast_takeLast L 10 df hL10
  have hne : (takeLast L df).length ≠ 0 := by
    rw [takeLast_length]
    omega
  have hne' : takeLast L df ≠ [] := by
    intro h
    rw [h] at hne
    exact hne rfl
  have hmapne : (takeLast L df).map (·.high) ≠ [] := by
    simp [hne']
  have hhigh : 0 < listMax ((takeLast L df).map (·.high)) := by
    have hmem := listMax_mem _ hmapne
    rcases List.mem_map.mp hmem with ⟨b, hb, hbeq⟩
    rw [← hbeq]
    exact hpos b (takeLast_subset _ _ _ hb)
  simp only [pivotWindowQualifies, hwindow, decide_eq_true_eq]
  constructor
  · rintro ⟨-, hr⟩
    exact ⟨hL.1, by omega, by simpa [pivotRangePct] using hr⟩
  · rintro ⟨-, -, hr⟩
    exact ⟨hhigh, by simpa [pivotRangePct] using hr⟩

/-- C2: `pivot_forming` on a daily series with positive highs returns the
longest window length between 3 and 10 whose trailing range percentage is
strictly below 8% (an exactly-8% window does not qualify), and the all-null
non-forming result when fewer than 3 bars exist or no window qualifies. -/
theorem c2_pivot_forming_longest_window (df : List DailyBar)
    (hpos : ∀ b ∈ df, 0 < b.high) :
    (df.length < 3 → pivot_forming df = emptyPivotResult) ∧
    (3 ≤ df.length →
      (∀ M : ℕ,
        ((pivot_forming df).forming = true ∧ (pivot_forming df).days = some M)
          ↔ (QualWindow df M ∧ ∀ L, QualWindow df L → L ≤ M)) ∧
      ((∀ L, ¬QualWindow df L) → pivot_forming df = emptyPivotResult)) := by
  constructor
  · intro hlt
    unfold pivot_forming
    unfold PIVOT_FORMING_MIN_DAYS PIVOT_FORMING_MAX_DAYS PIVOT_FORMING_MAX_RANGE_PCT
    rw [if_pos (Or.inr hlt)]
  · intro h3
    have hne : ¬(df.isEmpty = true ∨ df.length < 3) := by
      simp only [List.isEmpty_iff_length_eq_zero]
      omega
    have htail : ¬((takeLast 10 df).length < 3) := by
      rw [takeLast_length]
      omega
    have hqual : ∀ L, L ∈ pivotWindowLengths (takeLast 10 df).length 3 10 →
        (pivotWindowQualifies (takeLast 10 df) 8 L = true ↔ QualWindow df L) :=
      fun L hL => qualWindow_iff_qualifies df hpos h3 L hL
    have hqualmem : ∀ L, QualWindow df L →
        L ∈ pivotWindowLengths (takeLast 10 df).length 3 10 := by
      intro L hQ
      rw [pivotWindowLengths_mem, takeLast_length]
      exact ⟨hQ.1, by have := hQ.2.1; omega⟩
    constructor
    · intro M
      unfold pivot_forming
      unfold PIVOT_FORMING_MIN_DAYS PIVOT_FORMING_MAX_DAYS PIVOT_FORMING_MAX_RANGE_PCT
      rw [if_neg hne, if_neg htail]
      rcases hfind : (pivotWindowLengths (takeLast 10 df).length 3 10).find?
          (pivotWindowQualifies (takeLast 10 df) 8) with _ | L
      · have hnone := List.find?_eq_none.mp hfind
        constructor
        · rintro ⟨hform, -⟩
          simp [emptyPivotResult] at hform
        · rintro ⟨hQ, -⟩
          exact absurd ((hqual M (hqualmem M hQ)).mpr hQ)
            (by simpa using hnone M (hqualmem M hQ))
      · obtain ⟨hmem, hpL, hmax⟩ :=
          find?_desc_greatest (pivotWindowLengths_desc _ 3 10) _ hfind
        have hQL : QualWindow df L := (hqual L hmem).mp hpL
        constructor
        · rintro ⟨-, hdays⟩
          simp only [Option.some.injEq] at hdays
          subst hdays
          refine ⟨hQL, ?_⟩
          intro L' hQ'
          exact hmax L' (hqualmem L' hQ') ((hqual L' (hqualmem L' hQ')).mpr hQ')
        · rintro ⟨hQM, hMmax⟩
          have hLM : L ≤ M := hMmax L hQL
          have hML : M ≤ L :=
            hmax M (hqualmem M hQM) ((hqual M (hqualmem M hQM)).mpr hQM)
          have : L = M := le_antisymm hLM hML
          subst this
          exact ⟨rfl, rfl⟩
    · intro hnoqual
      unfold pivot_forming
      unfold PIVOT_FORMING_MIN_DAYS PIVOT_FORMING_MAX_DAYS PIVOT_FORMING_MAX_RANGE_PCT
      rw [if_neg hne, if_neg htail]
      rcases hfind : (pivotWindowLengths (takeLast 10 df).length 3 10).find?
          (pivotWindowQualifies (takeLast 10 df) 8) with _ | L
      · rfl
      · obtain ⟨hmem, hpL, -⟩ :=
          find?_desc_greatest (pivotWindowLengths_desc _ 3 10) _ hfind
        exact absurd ((hqual L hmem).mp hpL) (hnoqual L)

/-- A concrete 5-bar daily series in a tight range (range percentage
(101−99)/101·100 ≈ 1.98% < 8%), used to instantiate claims about
`pivot_forming`. -/
def dfC2 : List DailyBar :=
  [⟨0, 100, 101, 99, 100, 10⟩, ⟨1, 100, 101, 99, 100, 10⟩,
   ⟨2, 100, 101, 99, 100, 10⟩, ⟨3, 100, 101, 99, 100, 10⟩,
   ⟨4, 100, 101, 99, 100, 10⟩]

/-- C2 (witness): on the concrete 5-bar tight series, the longest qualifying
window is all 5 bars and `pivot_forming` reports it. -/
theorem c2_pivot_forming_longest_window_witness :
    (∀ b ∈ dfC2, 0 < b.high) ∧ 3 ≤ dfC2.length ∧
    (pivot_forming dfC2).forming = true ∧ (pivot_forming dfC2).days = some 5 ∧
    (((pivot_forming dfC2).forming = true ∧
        (pivot_forming dfC2).days = some 5) ↔
      (QualWindow dfC2 5 ∧ ∀ L, QualWindow dfC2 L → L ≤ 5)) := by
  refine ⟨by decide, by decide, by decide, by decide, ?_⟩
  exact ((c2_pivot_forming_longest_window dfC2 (by decide)).2 (by decide)).1 5

-- ---------------------------------------------------------------------------
-- C9
-- ---------------------------------------------------------------------------

/-- `pivot_forming` either returns the all-null non-forming record or reports
`forming` with a window length between `min_days` and `min(max_days, n)`. -/
theorem pivot_forming_cases (df : List DailyBar) :
    pivot_forming df = emptyPivotResult ∨
    ∃ L, 3 ≤ L ∧ L ≤ min 10 df.length ∧
      (pivot_forming df).forming = true ∧ (pivot_forming df).days = some L := by
  unfold pivot_forming PIVOT_FORMING_MIN_DAYS PIVOT_FORMING_MAX_DAYS
    PIVOT_FORMING_MAX_RANGE_PCT
  by_cases h1 : (df.isEmpty = true ∨ df.length < 3)
  · rw [if_pos h1]
    left; rfl
  · rw [if_neg h1]
    by_cases h2 : ((takeLast 10 df).length < 3)
    · rw [if_pos h2]
      left; rfl
    · rw [if_neg h2]
      rcases hfind : (pivotWindowLengths (takeLast 10 df).length 3 10).find?
          (pivotWindowQualifies (takeLast 10 df) 8) with _ | L
      · left; rfl
      right
      refine ⟨L, ?_, ?_, rfl, rfl⟩
      · have hmem := List.mem_of_find?_eq_some hfind
        rw [pivotWindowLengths_mem] at hmem
        exact hmem.1
      · have hmem := List.mem_of_find?_eq_some hfind
        rw [pivotWindowLengths_mem, takeLast_length] at hmem
        omega

/-- C9: with the pivot state computed from the series itself,
`pivot_volume_vs_average` is null when the pivot is not forming or the
lookback mean volume is not positive; otherwise it is `"below"` exactly when
the mean volume over the pivot window is strictly below the mean over the
50-day (or shorter available) lookback tail, and `"above"` otherwise —
including when the two means are exactly equal. -/
theorem c9_pivot_volume (df : List DailyBar) :
    ((pivot_forming df).forming = false →
      pivot_volume_vs_average df (pivot_forming df) = none) ∧
    ((pivot_forming df).forming = true → ∀ L,
      (pivot_forming df).days = some L →
      (listMean ((takeLast (max 50 L) df).map (·.volume)) ≤ 0 →
        pivot_volume_vs_average df (pivot_forming df) = none) ∧
      (0 < listMean ((takeLast (max 50 L) df).map (·.volume)) →
        (pivot_volume_vs_average df (pivot_forming df) = some "below" ↔
          listMean ((takeLast L (takeLast (max 50 L) df)).map (·.volume)) <
            listMean ((takeLast (max 50 L) df).map (·.volume))) ∧
        (pivot_volume_vs_average df (pivot_forming df) = some "above" ↔
          listMean ((takeLast (max 50 L) df).map (·.volume)) ≤
            listMean ((takeLast L (takeLast (max 50 L) df)).map (·.volume))))) := by
  constructor
  · intro h
    unfold pivot_volume_vs_average PIVOT_VOLUME_LOOKBACK_DAYS
    rw [if_pos (Or.inl (by simp [h]))]
  · intro hform L hdays
    have hLbound : 3 ≤ L ∧ L ≤ min 10 df.length := by
      rcases pivot_forming_cases df with hcase | ⟨L', h3, hb, -, hdays'⟩
      · rw [hcase] at hform
        simp [emptyPivotResult] at hform
      · rw [hdays'] at hdays
        injection hdays with h
        subst h
        exact ⟨h3, hb⟩
    have hnotempty : ¬df.isEmpty = true := by
      simp only [List.isEmpty_iff_length_eq_zero]
      omega
    have hL1 : ¬(L < 1) := by omega
    have htaillen : ¬((takeLast (max 50 L) df).length < L) := by
      rw [takeLast_length]
      omega
    unfold pivot_volume_vs_average PIVOT_VOLUME_LOOKBACK_DAYS
    rw [if_neg (by simp [hform, hnotempty]), hdays]
    simp only [hL1, if_false, htaillen]
    constructor
    · intro hlb
      rw [if_pos hlb]
    · intro hlb
      rw [if_neg (by linarith)]
      constructor
      · constructor
        · intro h
          by_cases hc : listMean ((takeLast L (takeLast (max 50 L) df)).map
              (·.volume)) < listMean ((takeLast (max 50 L) df).map (·.volume))
          · exact hc
          · rw [if_neg hc] at h
            exact absurd h (by simp)
        · intro hc
          rw [if_pos hc]
      · constructor
        · intro h
          by_cases hc : listMean ((takeLast L (takeLast (max 50 L) df)).map
              (·.volume)) < listMean ((takeLast (max 50 L) df).map (·.volume))
          · rw [if_pos hc] at h
            exact absurd h (by simp)
          · linarith [not_lt.mp hc]
        · intro hc
          rw [if_neg (by linarith)]

/-- C9 (witness): on the concrete 5-bar series with constant volume, the two
means are equal and the comparison reports `"above"`. -/
theorem c9_pivot_volume_witness :
    (pivot_forming dfC2).forming = true ∧
    pivot_volume_vs_average dfC2 (pivot_forming dfC2) = some "above" := by
  refine ⟨by decide, ?_⟩
  have h := (c9_pivot_volume dfC2).2 (by decide) 5 (by decide)
  exact (h.2 (by decide)).2.mpr (by decide)

-- ---------------------------------------------------------------------------
-- C6
-- ---------------------------------------------------------------------------

/-- The conditions under which `uptrend_at_date` succeeds, spelled out: a
nearest prior trading day exists, all three SMAs are defined there and
strictly ordered 50 > 150 > 200, the 200-day SMA is strictly above its value
21 trading days earlier, and (unless fewer than 5 prior bars exist) each SMA
is strictly above its value 5 trading days earlier. -/
def UptrendSpec (df : List SmaRow) (d : ℤ) : Prop :=
  ∃ pos, lastIndexLE df d = some pos ∧
    ∃ s50 s150 s200,
      (df.getD pos default).sma50 = some s50 ∧
      (df.getD pos default).sma150 = some s150 ∧
      (df.getD pos default).sma200 = some s200 ∧
      s150 < s50 ∧ s200 < s150 ∧
      UPTREND_SLOPE_DAYS ≤ pos ∧
      (∃ a, (df.getD (pos - UPTREND_SLOPE_DAYS) default).sma200 = some a ∧
        a < s200) ∧
      (pos < SMA_RISING_LOOKBACK ∨
        ((∃ a, (df.getD (pos - SMA_RISING_LOOKBACK) default).sma50 = some a ∧
            a < s50) ∧
         (∃ a, (df.getD (pos - SMA_RISING_LOOKBACK) default).sma150 = some a ∧
            a < s150) ∧
         (∃ a, (df.getD (pos - SMA_RISING_LOOKBACK) default).sma200 = some a ∧
            a < s200)))

theorem lastIndexLE_of_isEmpty (df : List SmaRow) (d : ℤ)
    (h : df.isEmpty = true) : lastIndexLE df d = none := by
  unfold lastIndexLE
  have hn : df.length = 0 := by
    simpa [List.isEmpty_iff_length_eq_zero] using h
  simp [hn]

set_option maxHeartbeats 2000000 in
theorem uptrend_at_date_iff (df : List SmaRow) (d : ℤ) :
    uptrend_at_date df d = true ↔ UptrendSpec df d := by
  unfold uptrend_at_date UptrendSpec UPTREND_SLOPE_DAYS SMA_RISING_LOOKBACK
  by_cases hemp : df.isEmpty = true
  · rw [if_pos hemp]
    rw [lastIndexLE_of_isEmpty df d hemp]
    simp
  · rw [if_neg hemp]
    rcases hpos : lastIndexLE df d with _ | pos
    · simp
    · simp only [Option.some.injEq, exists_eq_left]
      rcases h50 : (df.getD pos default).sma50 with _ | s50
      · simp_all
      rcases h150 : (df.getD pos default).sma150 with _ | s150
      · simp_all
      rcases h200 : (df.getD pos default).sma200 with _ | s200
      · simp_all
      simp only [Option.some.injEq, exists_eq_left]
      rcases hago : (df.getD (pos - 21) default).sma200 with _ | b200 <;>
        rcases hr50 : (df.getD (pos - 5) default).sma50 with _ | a50 <;>
        rcases hr150 : (df.getD (pos - 5) default).sma150 with _ | a150 <;>
        rcases hr200 : (df.getD (pos - 5) default).sma200 with _ | a200 <;>
        split_ifs <;>
        simp_all <;>
        first
          | omega
          | (intro hb
             constructor
             · rintro ⟨⟨u1, u2⟩, u3⟩
               exact Or.inr ⟨u1, u2, u3⟩
             · rintro (hlt | ⟨u1, u2, u3⟩)
               · omega
               · exact ⟨⟨u1, u2⟩, u3⟩)

/-- Windowed sum `c[s] + c[s+1] + … + c[s+w-1]` (missing entries count 0). -/
def WS (c : List ℚ) (s w : ℕ) : ℚ := ∑ j ∈ Finset.range w, c.getD (s + j) 0

theorem option_toList_sum (o : Option ℚ) : o.toList.sum = o.getD 0 := by
  rcases o with _ | x <;> simp

theorem WS_succ (c : List ℚ) (s w : ℕ) :
    WS c s (w + 1) = WS c s w + c.getD (s + w) 0 := by
  rw [WS, Finset.sum_range_succ, ← WS]

theorem slice_sum_eq_WS (c : List ℚ) (s w : ℕ) :
    ((c.drop s).take w).sum = WS c s w := by
  induction w with
  | zero => simp [WS]
  | succ w ih =>
    rw [List.take_succ, List.sum_append, ih, WS_succ]
    congr 1
    rw [List.getElem?_drop, List.getD_eq_getElem?_getD]
    exact option_toList_sum _

theorem WS_add (c : List ℚ) (s a b : ℕ) :
    WS c s (a + b) = WS c s a + WS c (s + a) b := by
  induction b with
  | zero => simp [WS]
  | succ b ih =>
    have h1 : a + (b + 1) = (a + b) + 1 := by omega
    rw [h1, WS_succ, ih, WS_succ,
      show s + (a + b) = s + a + b by omega, add_assoc]

theorem adj_lt_of_lt {α : Type} [Preorder α] (g : ℕ → α) (n : ℕ)
    (h : ∀ i, i + 1 < n → g i < g (i + 1)) :
    ∀ i j, i < j → j < n → g i < g j := by
  intro i j hij hj
  induction j with
  | zero => omega
  | succ j ih =>
    rcases Nat.lt_succ_iff_lt_or_eq.mp hij with h' | h'
    · exact lt_trans (ih h' (by omega)) (h j hj)
    · subst h'
      exact h i hj

theorem adj_le_of_le {α : Type} [Preorder α] (g : ℕ → α) (n : ℕ)
    (h : ∀ i, i + 1 < n → g i < g (i + 1)) :
    ∀ i j, i ≤ j → j < n → g i ≤ g j := by
  intro i j hij hj
  rcases lt_or_eq_of_le hij with h' | h'
  · exact le_of_lt (adj_lt_of_lt g n h i j h' hj)
  · rw [h']

theorem WS_lt_WS_shift {c : List ℚ}
    (hmono : ∀ i, i + 1 < c.length → c.getD i 0 < c.getD (i + 1) 0)
    (s w δ : ℕ) (hw : 1 ≤ w) (hδ : 1 ≤ δ) (hn : s + δ + w ≤ c.length) :
    WS c s w < WS c (s + δ) w := by
  apply Finset.sum_lt_sum_of_nonempty
  · simp [Finset.nonempty_range_iff]
    omega
  · intro j hj
    rw [Finset.mem_range] at hj
    exact adj_lt_of_lt (fun i => c.getD i 0) c.length hmono (s + j)
      (s + δ + j) (by omega) (by omega)

theorem WS_le_const {c : List ℚ}
    (hmono : ∀ i, i + 1 < c.length → c.getD i 0 < c.getD (i + 1) 0)
    (s w m : ℕ) (hsm : s + w ≤ m + 1) (hm : m < c.length) :
    WS c s w ≤ (w : ℚ) * c.getD m 0 := by
  calc WS c s w ≤ ∑ _j ∈ Finset.range w, c.getD m 0 := by
        apply Finset.sum_le_sum
        intro j hj
        rw [Finset.mem_range] at hj
        exact adj_le_of_le (fun i => c.getD i 0) c.length hmono (s + j) m
          (by omega) hm
    _ = (w : ℚ) * c.getD m 0 := by
        rw [Finset.sum_const, nsmul_eq_mul]
        simp

theorem const_le_WS {c : List ℚ}
    (hmono : ∀ i, i + 1 < c.length → c.getD i 0 < c.getD (i + 1) 0)
    (s w m : ℕ) (hms : m ≤ s) (hn : s + w ≤ c.length) (hw : 1 ≤ w) :
    (w : ℚ) * c.getD m 0 ≤ WS c s w := by
  calc (w : ℚ) * c.getD m 0 = ∑ _j ∈ Finset.range w, c.getD m 0 := by
        rw [Finset.sum_const, nsmul_eq_mul]
        simp
    _ ≤ WS c s w := by
        apply Finset.sum_le_sum
        intro j hj
        rw [Finset.mem_range] at hj
        exact adj_le_of_le (fun i => c.getD i 0) c.length hmono m (s + j)
          (by omega) (by omega)

/-- On a strictly increasing series the mean of the last `w1` entries (ending
at `p`) strictly exceeds the mean of the last `w2` entries when `w1 < w2`. -/
theorem sma_cross {c : List ℚ}
    (hmono : ∀ i, i + 1 < c.length → c.getD i 0 < c.getD (i + 1) 0)
    (w1 w2 p : ℕ) (h12 : w1 < w2) (hw1 : 1 ≤ w1)
    (hw2p : w2 ≤ p + 1) (hp : p < c.length) :
    WS c (p + 1 - w2) w2 / (w2 : ℚ) < WS c (p + 1 - w1) w1 / (w1 : ℚ) := by
  have hw2 : (0 : ℚ) < (w2 : ℚ) := by
    have : 0 < w2 := by omega
    exact_mod_cast this
  have hw1q : (0 : ℚ) < (w1 : ℚ) := by
    have : 0 < w1 := by omega
    exact_mod_cast this
  rw [div_lt_div_iff₀ hw2 hw1q]
  have hsplit : WS c (p + 1 - w2) w2 =
      WS c (p + 1 - w2) (w2 - w1) + WS c (p + 1 - w1) w1 := by
    have h1 : w2 = (w2 - w1) + w1 := by omega
    have h2 : (p + 1 - w2) + (w2 - w1) = p + 1 - w1 := by omega
    calc WS c (p + 1 - w2) w2 = WS c (p + 1 - w2) ((w2 - w1) + w1) := by
          rw [← h1]
      _ = WS c (p + 1 - w2) (w2 - w1) + WS c (p + 1 - w1) w1 := by
          rw [WS_add, h2]
  have hs1 : 1 ≤ p + 1 - w1 := by omega
  have hT : WS c (p + 1 - w2) (w2 - w1) ≤
      ((w2 - w1 : ℕ) : ℚ) * c.getD (p + 1 - w1 - 1) 0 :=
    WS_le_const hmono _ _ _ (by omega) (by omega)
  have hB : ((w1 : ℕ) : ℚ) * c.getD (p + 1 - w1) 0 ≤ WS c (p + 1 - w1) w1 :=
    const_le_WS hmono _ _ _ (le_refl _) (by omega) hw1
  have hK : c.getD (p + 1 - w1 - 1) 0 < c.getD (p + 1 - w1) 0 := by
    have h := hmono (p + 1 - w1 - 1) (by omega)
    have heq : p + 1 - w1 - 1 + 1 = p + 1 - w1 := by omega
    rwa [heq] at h
  have hw21 : ((w2 : ℚ) - (w1 : ℚ)) = ((w2 - w1 : ℕ) : ℚ) := by
    push_cast [Nat.cast_sub (le_of_lt h12)]
    ring
  have hw21nn : (0 : ℚ) ≤ ((w2 - w1 : ℕ) : ℚ) := by positivity
  have hw21pos : (0 : ℚ) < ((w2 - w1 : ℕ) : ℚ) * (w1 : ℚ) := by
    have h1 : (1 : ℚ) ≤ ((w2 - w1 : ℕ) : ℚ) := by
      exact_mod_cast (by omega : 1 ≤ w2 - w1)
    nlinarith
  have hq1 := mul_le_mul_of_nonneg_right hT (le_of_lt hw1q)
  have hq2 := mul_lt_mul_of_pos_right hK hw21pos
  have hq3 := mul_le_mul_of_nonneg_left hB hw21nn
  have hq0 : WS c (p + 1 - w2) w2 * (w1 : ℚ) =
      WS c (p + 1 - w2) (w2 - w1) * (w1 : ℚ) +
        WS c (p + 1 - w1) w1 * (w1 : ℚ) := by
    rw [hsplit]
    ring
  have hq4 : WS c (p + 1 - w1) w1 * (w2 : ℚ) =
      ((w2 - w1 : ℕ) : ℚ) * WS c (p + 1 - w1) w1 +
        WS c (p + 1 - w1) w1 * (w1 : ℚ) := by
    rw [← hw21]
    ring
  linarith [hq0, hq1, hq2, hq3, hq4]

/-- On a strictly increasing series the mean of the last `w` entries ending at
`p` strictly exceeds the mean of the `w` entries ending at `p - δ`. -/
theorem sma_shift {c : List ℚ}
    (hmono : ∀ i, i + 1 < c.length → c.getD i 0 < c.getD (i + 1) 0)
    (w δ p : ℕ) (hw : 1 ≤ w) (hδ : 1 ≤ δ)
    (hwp : w + δ ≤ p + 1) (hp : p < c.length) :
    WS c (p - δ + 1 - w) w / (w : ℚ) < WS c (p + 1 - w) w / (w : ℚ) := by
  have hwq : (0 : ℚ) < (w : ℚ) := by
    have : 0 < w := by omega
    exact_mod_cast this
  have hlt : WS c (p - δ + 1 - w) w < WS c (p + 1 - w) w := by
    have heq : (p - δ + 1 - w) + δ = p + 1 - w := by omega
    have h := WS_lt_WS_shift hmono (p - δ + 1 - w) w δ hw hδ (by omega)
    rwa [heq] at h
  exact (div_lt_div_iff_of_pos_right hwq).mpr hlt

theorem compute_smas_getD (df : List DailyBar) (i : ℕ) (hi : i < df.length) :
    (compute_smas df).getD i default =
      { date := (df.getD i default).date,
        close := (df.getD i default).close,
        sma50 := smaAt (df.map (·.close)) 50 i,
        sma150 := smaAt (df.map (·.close)) 150 i,
        sma200 := smaAt (df.map (·.close)) 200 i } := by
  unfold compute_smas
  rw [List.getD_eq_getElem?_getD, List.getElem?_map, List.getElem?_range hi]
  rfl

theorem compute_smas_length (df : List DailyBar) :
    (compute_smas df).length = df.length := by
  unfold compute_smas
  simp

theorem smaAt_eq (closes : List ℚ) (w pos : ℕ) (h : w ≤ pos + 1) :
    smaAt closes w pos = some (WS closes (pos + 1 - w) w / (w : ℚ)) := by
  unfold smaAt
  rw [if_pos h, slice_sum_eq_WS]

theorem closes_getD (df : List DailyBar) (i : ℕ) (hi : i < df.length) :
    (df.map (·.close)).getD i 0 = (df.getD i default).close := by
  rw [List.getD_eq_getElem?_getD, List.getElem?_map,
    List.getD_eq_getElem?_getD, List.getElem?_eq_getElem hi]
  rfl

theorem filter_range_le (n pos : ℕ) :
    (List.range n).filter (fun i => decide (i ≤ pos)) =
      List.range (min n (pos + 1)) := by
  induction n with
  | zero => rfl
  | succ n ih =>
    rw [List.range_succ, List.filter_append, ih]
    by_cases h : n ≤ pos
    · have h1 : min n (pos + 1) = n := by omega
      have h2 : min (n + 1) (pos + 1) = n + 1 := by omega
      rw [h1, h2]
      simp [h, List.range_succ]
    · have h1 : min n (pos + 1) = min (n + 1) (pos + 1) := by omega
      rw [h1]
      simp [h]

theorem lastIndexLE_strictMono (df : List SmaRow)
    (hd : ∀ i, i + 1 < df.length →
      (df.getD i default).date < (df.getD (i + 1) default).date)
    (pos : ℕ) (hpos : pos < df.length) :
    lastIndexLE df ((df.getD pos default).date) = some pos := by
  unfold lastIndexLE
  have hcong : (List.range df.length).filter
      (fun i => decide ((df.getD i default).date ≤ (df.getD pos default).date))
      = (List.range df.length).filter (fun i => decide (i ≤ pos)) := by
    apply List.filter_congr
    intro i hi
    rw [List.mem_range] at hi
    simp only [decide_eq_decide]
    constructor
    · intro h
      by_contra hgt
      push_neg at hgt
      have hlt := adj_lt_of_lt (fun j => (df.getD j default).date) df.length
        hd pos i hgt hi
      simp only at hlt
      omega
    · intro h
      exact adj_le_of_le (fun j => (df.getD j default).date) df.length hd
        i pos h hpos
  rw [hcong, filter_range_le, min_eq_right (by omega), List.range_succ,
    List.getLast?_concat]

/-- On a series with strictly increasing dates and closes, `uptrend_at_date`
over the computed SMA frame holds at every row from index 221 on. -/
theorem uptrend_monotone_series (df : List DailyBar)
    (hd : ∀ i, i + 1 < df.length →
      (df.getD i default).date < (df.getD (i + 1) default).date)
    (hc : ∀ i, i + 1 < df.length →
      (df.getD i default).close < (df.getD (i + 1) default).close)
    (pos : ℕ) (hpos : 221 ≤ pos) (hlt : pos < df.length) :
    uptrend_at_date (compute_smas df) ((df.getD pos default).date) = true := by
  apply (uptrend_at_date_iff _ _).mpr
  unfold UptrendSpec UPTREND_SLOPE_DAYS SMA_RISING_LOOKBACK
  have hlen := compute_smas_length df
  have hmono : ∀ i, i + 1 < (df.map (·.close)).length →
      (df.map (·.close)).getD i 0 < (df.map (·.close)).getD (i + 1) 0 := by
    intro i hi
    rw [List.length_map] at hi
    rw [closes_getD df i (by omega), closes_getD df (i + 1) hi]
    exact hc i hi
  have hclen : (df.map (·.close)).length = df.length := List.length_map _ _
  have hdates : ∀ i, i + 1 < (compute_smas df).length →
      ((compute_smas df).getD i default).date <
        ((compute_smas df).getD (i + 1) default).date := by
    intro i hi
    rw [hlen] at hi
    rw [compute_smas_getD df i (by omega), compute_smas_getD df (i + 1) hi]
    exact hd i hi
  refine ⟨pos, ?_, ?_⟩
  · have h := lastIndexLE_strictMono (compute_smas df) hdates pos
      (by omega)
    rwa [compute_smas_getD df pos hlt] at h
  · rw [compute_smas_getD df pos hlt]
    rw [compute_smas_getD df (pos - 21) (by omega)]
    rw [compute_smas_getD df (pos - 5) (by omega)]
    simp only [smaAt_eq (df.map (·.close)) 50 pos (by omega),
      smaAt_eq (df.map (·.close)) 150 pos (by omega),
      smaAt_eq (df.map (·.close)) 200 pos (by omega),
      smaAt_eq (df.map (·.close)) 50 (pos - 5) (by omega),
      smaAt_eq (df.map (·.close)) 150 (pos - 5) (by omega),
      smaAt_eq (df.map (·.close)) 200 (pos - 5) (by omega),
      smaAt_eq (df.map (·.close)) 200 (pos - 21) (by omega)]
    refine ⟨_, _, _, rfl, rfl, rfl, ?_, ?_, by omega, ⟨_, rfl, ?_⟩,
      Or.inr ⟨⟨_, rfl, ?_⟩, ⟨_, rfl, ?_⟩, ⟨_, rfl, ?_⟩⟩⟩
    · exact sma_cross hmono 50 150 pos (by omega) (by omega) (by omega)
        (by omega)
    · exact sma_cross hmono 150 200 pos (by omega) (by omega) (by omega)
        (by omega)
    · have h := sma_shift hmono 200 21 pos (by omega) (by omega) (by omega)
        (by omega)
      have heq : pos - 21 + 1 - 200 = pos - 21 + 1 - 200 := rfl
      convert h using 3 <;> omega
    · have h := sma_shift hmono 50 5 pos (by omega) (by omega) (by omega)
        (by omega)
      convert h using 3 <;> omega
    · have h := sma_shift hmono 150 5 pos (by omega) (by omega) (by omega)
        (by omega)
      convert h using 3 <;> omega
    · have h := sma_shift hmono 200 5 pos (by omega) (by omega) (by omega)
        (by omega)
      convert h using 3 <;> omega

/-- C6: `uptrend_at_date` evaluates at the nearest prior trading day and is
true iff the SMAs are strictly ordered 50 > 150 > 200 there, the 200-day SMA
strictly exceeds its value 21 trading days earlier, and each SMA strictly
exceeds its value 5 trading days earlier (passing vacuously with fewer than 5
prior bars); it is false whenever one of the three SMAs is undefined at the
evaluation point; and on a series with strictly increasing closes it is true
at every evaluation row from index 221 on. -/
theorem c6_uptrend_at_date :
    (∀ (df : List SmaRow) (d : ℤ),
      uptrend_at_date df d = true ↔ UptrendSpec df d) ∧
    (∀ (df : List SmaRow) (d : ℤ) (pos : ℕ),
      lastIndexLE df d = some pos →
      ((df.getD pos default).sma50 = none ∨
       (df.getD pos default).sma150 = none ∨
       (df.getD pos default).sma200 = none) →
      uptrend_at_date df d = false) ∧
    (∀ df : List DailyBar,
      (∀ i, i + 1 < df.length →
        (df.getD i default).date < (df.getD (i + 1) default).date) →
      (∀ i, i + 1 < df.length →
        (df.getD i default).close < (df.getD (i + 1) default).close) →
      ∀ pos, 221 ≤ pos → pos < df.length →
      uptrend_at_date (compute_smas df) ((df.getD pos default).date)
        = true) := by
  refine ⟨uptrend_at_date_iff, ?_, uptrend_monotone_series⟩
  intro df d pos hpos hnone
  by_contra h
  have ht : uptrend_at_date df d = true := by
    revert h
    cases uptrend_at_date df d <;> simp
  obtain ⟨pos', hpos', s50, s150, s200, h50, h150, h200, -⟩ :=
    (uptrend_at_date_iff df d).mp ht
  rw [hpos] at hpos'
  injection hpos' with he
  subst he
  rcases hnone with hn | hn | hn
  · rw [hn] at h50
    cases h50
  · rw [hn] at h150
    cases h150
  · rw [hn] at h200
    cases h200

/-- A 230-bar strictly increasing daily series. -/
def dfC6 : List DailyBar :=
  (List.range 230).map (fun (i : ℕ) =>
    ⟨(i : ℤ), (i : ℚ), (i : ℚ), (i : ℚ), (i : ℚ), 1⟩)

theorem dfC6_getD (i : ℕ) (hi : i < 230) :
    dfC6.getD i default = ⟨(i : ℤ), (i : ℚ), (i : ℚ), (i : ℚ), (i : ℚ), 1⟩ := by
  unfold dfC6
  rw [List.getD_eq_getElem?_getD, List.getElem?_map, List.getElem?_range hi]
  rfl

theorem dfC6_length : dfC6.length = 230 := by
  unfold dfC6
  simp

/-- C6 (witness): the uptrend test holds at row 225 of the strictly
increasing 230-bar series, and a 22-row frame with an undefined SMA at the
evaluation point fails the test. -/
theorem c6_uptrend_at_date_witness :
    uptrend_at_date (compute_smas dfC6) ((dfC6.getD 225 default).date)
      = true ∧
    uptrend_at_date (List.replicate 22 (⟨0, 1, none, none, none⟩ : SmaRow)) 0
      = false := by
  constructor
  · apply c6_uptrend_at_date.2.2 dfC6
    · intro i hi
      rw [dfC6_length] at hi
      rw [dfC6_getD i (by omega), dfC6_getD (i + 1) (by omega)]
      show (i : ℤ) < ((i + 1 : ℕ) : ℤ)
      exact_mod_cast Nat.lt_succ_self i
    · intro i hi
      rw [dfC6_length] at hi
      rw [dfC6_getD i (by omega), dfC6_getD (i + 1) (by omega)]
      show (i : ℚ) < ((i + 1 : ℕ) : ℚ)
      exact_mod_cast Nat.lt_succ_self i
    · omega
    · rw [dfC6_length]
      omega
  · apply c6_uptrend_at_date.2.1 _ _ 21
    · decide
    · left
      decide

-- ---------------------------------------------------------------------------
-- C3
-- ---------------------------------------------------------------------------

theorem setKey_mem {l : List (ℤ × Base)} {k : ℤ} {v : Base} :
    ∀ p ∈ setKey l k v, p = (k, v) ∨ p ∈ l := by
  induction l with
  | nil =>
    intro p hp
    simp [setKey] at hp
    left
    exact hp
  | cons q t ih =>
    intro p hp
    rw [setKey] at hp
    split_ifs at hp with hq
    · rcases List.mem_cons.mp hp with rfl | hp'
      · left; rfl
      · right; exact List.mem_cons_of_mem q hp'
    · rcases List.mem_cons.mp hp with rfl | hp'
      · right; exact List.mem_cons_self q t
      · rcases ih p hp' with h | h
        · left; exact h
        · right; exact List.mem_cons_of_mem q h

theorem keysOf_setKey_of_mem {l : List (ℤ × Base)} {k : ℤ} (v : Base)
    (h : k ∈ l.map (·.1)) : (setKey l k v).map (·.1) = l.map (·.1) := by
  induction l with
  | nil => simp at h
  | cons q t ih =>
    rw [setKey]
    split_ifs with hq
    · simp [hq]
    · simp only [List.map_cons]
      rw [List.map_cons] at *
      congr 1
      apply ih
      rcases List.mem_cons.mp h with h' | h'
      · exact absurd h'.symm hq
      · exact h'

theorem keysOf_setKey_of_not_mem {l : List (ℤ × Base)} {k : ℤ} (v : Base)
    (h : k ∉ l.map (·.1)) :
    (setKey l k v).map (·.1) = l.map (·.1) ++ [k] := by
  induction l with
  | nil => simp [setKey]
  | cons q t ih =>
    rw [setKey]
    split_ifs with hq
    · exfalso
      apply h
      rw [← hq]
      simp
    · simp only [List.map_cons, List.cons_append]
      congr 1
      apply ih
      intro hmem
      exact h (by simp [hmem])

theorem keysOf_setKey_nodup {l : List (ℤ × Base)} {k : ℤ} (v : Base)
    (h : (l.map (·.1)).Nodup) : ((setKey l k v).map (·.1)).Nodup := by
  by_cases hk : k ∈ l.map (·.1)
  · rw [keysOf_setKey_of_mem v hk]
    exact h
  · rw [keysOf_setKey_of_not_mem v hk]
    simp [List.nodup_append, h, hk]

theorem lookupKey_isSome_iff {l : List (ℤ × Base)} {k : ℤ} :
    (lookupKey l k).isSome = true ↔ k ∈ l.map (·.1) := by
  induction l with
  | nil => simp [lookupKey]
  | cons q t ih =>
    rw [lookupKey]
    split_ifs with hq
    · simp [hq]
    · simp only [List.map_cons, List.mem_cons]
      rw [ih]
      constructor
      · intro h
        right
        exact h
      · rintro (h | h)
        · exact absurd h.symm hq
        · exact h

theorem lookupKey_setKey_self (l : List (ℤ × Base)) (k : ℤ) (v : Base) :
    lookupKey (setKey l k v) k = some v := by
  induction l with
  | nil => simp [setKey, lookupKey]
  | cons q t ih =>
    rw [setKey]
    split_ifs with hq
    · simp [lookupKey]
    · rw [lookupKey]
      rw [if_neg hq]
      exact ih

theorem lookupKey_setKey_ne (l : List (ℤ × Base)) (k k' : ℤ) (v : Base)
    (h : k' ≠ k) : lookupKey (setKey l k v) k' = lookupKey l k' := by
  induction l with
  | nil =>
    simp only [setKey, lookupKey]
    rw [if_neg (fun he => h he.symm)]
  | cons q t ih =>
    rw [setKey]
    split_ifs with hq
    · simp only [lookupKey]
      rw [if_neg (fun he => h he.symm),
        if_neg (fun he => h (hq ▸ he).symm)]
    · simp only [lookupKey]
      split_ifs with hq'
      · rfl
      · exact ih

/-- Keys-match invariant of the dedup dictionary: every stored record's
`start_date` is its key. -/
def KeysMatch (l : List (ℤ × Base)) : Prop := ∀ p ∈ l, p.2.start_date = p.1

theorem keysMatch_setKey {l : List (ℤ × Base)} {k : ℤ} {v : Base}
    (hl : KeysMatch l) (hv : v.start_date = k) : KeysMatch (setKey l k v) := by
  intro p hp
  rcases setKey_mem p hp with rfl | hp'
  · exact hv
  · exact hl p hp'

theorem filter_values_of_lookup {l : List (ℤ × Base)} {s : ℤ} {v : Base}
    (hnd : (l.map (·.1)).Nodup) (hkm : KeysMatch l)
    (hl : lookupKey l s = some v) :
    (l.map (·.2)).filter (fun b => decide (b.start_date = s)) = [v] := by
  induction l with
  | nil => cases hl
  | cons q t ih =>
    simp only [lookupKey] at hl
    rw [List.map_cons] at hnd
    rw [List.nodup_cons] at hnd
    have hq2 : q.2.start_date = q.1 := hkm q (List.mem_cons_self q t)
    split_ifs at hl with hq
    · injection hl with hl
      subst hl
      simp only [List.map_cons, List.filter_cons]
      rw [if_pos (by simp [hq2, hq])]
      have hrest : (t.map (·.2)).filter (fun b => decide (b.start_date = s))
          = [] := by
        rw [List.filter_eq_nil_iff]
        intro b hb
        rcases List.mem_map.mp hb with ⟨p, hp, rfl⟩
        have := hkm p (List.mem_cons_of_mem q hp)
        simp only [decide_eq_true_eq]
        rw [this]
        intro heq
        apply hnd.1
        rw [hq, ← heq]
        exact List.mem_map.mpr ⟨p, hp, rfl⟩
      rw [hrest]
    · simp only [List.map_cons, List.filter_cons]
      rw [if_neg (by simp [hq2]; exact fun he => hq he)]
      exact ih hnd.2 (fun p hp => hkm p (List.mem_cons_of_mem q hp)) hl

theorem dedupStep_keysMatch {last : ℤ} {st : List (ℤ × Base)} {b : Base}
    (h : KeysMatch st) : KeysMatch (dedupStep last st b) := by
  simp only [dedupStep]
  split_ifs with hc
  · exact keysMatch_setKey h rfl
  · exact h

theorem dedupStep_nodup {last : ℤ} {st : List (ℤ × Base)} {b : Base}
    (h : (st.map (·.1)).Nodup) :
    ((dedupStep last st b).map (·.1)).Nodup := by
  simp only [dedupStep]
  split_ifs with hc
  · exact keysOf_setKey_nodup _ h
  · exact h

theorem dedupStep_key_mono {last : ℤ} {st : List (ℤ × Base)} {b : Base}
    {s : ℤ} (h : s ∈ st.map (·.1)) : s ∈ (dedupStep last st b).map (·.1) := by
  simp only [dedupStep]
  split_ifs with hc
  · by_cases hk : b.start_date ∈ st.map (·.1)
    · rw [keysOf_setKey_of_mem _ hk]
      exact h
    · rw [keysOf_setKey_of_not_mem _ hk]
      exact List.mem_append_left _ h
  · exact h

theorem dedupFold_keysMatch (last : ℤ) (l : List Base)
    (st : List (ℤ × Base)) (h : KeysMatch st) :
    KeysMatch (l.foldl (dedupStep last) st) := by
  induction l generalizing st with
  | nil => exact h
  | cons b t ih => exact ih _ (dedupStep_keysMatch h)

theorem dedupFold_nodup (last : ℤ) (l : List Base) (st : List (ℤ × Base))
    (h : (st.map (·.1)).Nodup) :
    ((l.foldl (dedupStep last) st).map (·.1)).Nodup := by
  induction l generalizing st with
  | nil => exact h
  | cons b t ih => exact ih _ (dedupStep_nodup h)

theorem dedupFold_key_mono (last : ℤ) (l : List Base) (st : List (ℤ × Base))
    {s : ℤ} (h : s ∈ st.map (·.1)) :
    s ∈ (l.foldl (dedupStep last) st).map (·.1) := by
  induction l generalizing st with
  | nil => exact h
  | cons b t ih => exact ih _ (dedupStep_key_mono h)

theorem dedupFold_key_present (last : ℤ) (l : List Base)
    (st : List (ℤ × Base)) {s : ℤ} (h : ∃ b ∈ l, b.start_date = s) :
    s ∈ (l.foldl (dedupStep last) st).map (·.1) := by
  induction l generalizing st with
  | nil =>
    obtain ⟨b, hb, -⟩ := h
    cases hb
  | cons b t ih =>
    obtain ⟨b0, hb0, hs⟩ := h
    rcases List.mem_cons.mp hb0 with heq | hb0'
    · subst heq
      rw [List.foldl_cons]
      apply dedupFold_key_mono last t (dedupStep last st b0)
      have hmem : b0.start_date ∈ (dedupStep last st b0).map (·.1) := by
        simp only [dedupStep]
        split_ifs with hc
        · by_cases hk : b0.start_date ∈ st.map (·.1)
          · rw [keysOf_setKey_of_mem _ hk]
            exact hk
          · rw [keysOf_setKey_of_not_mem _ hk]
            exact List.mem_append_right _ (by simp)
        · rw [not_or] at hc
          have h1 : (lookupKey st b0.start_date).isSome = true := by
            rcases hlk : lookupKey st b0.start_date with _ | v
            · exact absurd (by rw [hlk]; rfl) hc.1
            · rfl
          exact lookupKey_isSome_iff.mp h1
      rw [hs] at hmem
      exact hmem
    · exact ih _ ⟨b0, hb0', hs⟩

theorem dedupFold_current (last : ℤ) (l : List Base) (st : List (ℤ × Base))
    {s : ℤ}
    (h : (∃ b ∈ l, b.start_date = s ∧ b.end_date = last) ∨
      (∃ v, lookupKey st s = some v ∧ v.end_date = last)) :
    ∃ v, lookupKey (l.foldl (dedupStep last) st) s = some v ∧
      v.end_date = last := by
  induction l generalizing st with
  | nil =>
    rcases h with ⟨b, hb, -⟩ | h
    · cases hb
    · exact h
  | cons b t ih =>
    rcases h with ⟨b0, hb0, hs, he⟩ | ⟨v, hv, hve⟩
    · rcases List.mem_cons.mp hb0 with rfl | hb0'
      · apply ih
        right
        refine ⟨{ b0 with is_current := b0.end_date = last }, ?_, he⟩
        simp only [dedupStep]
        rw [if_pos (Or.inr (by simp [he]))]
        subst hs
        exact lookupKey_setKey_self st _ _
      · exact ih _ (Or.inl ⟨b0, hb0', hs, he⟩)
    · apply ih
      right
      simp only [dedupStep]
      split_ifs with hc
      · by_cases hbs : b.start_date = s
        · rcases hc with hc | hc
          · exfalso
            rw [hbs, hv] at hc
            simp at hc
          · refine ⟨{ b with is_current := b.end_date = last }, ?_, ?_⟩
            · rw [← hbs]
              exact lookupKey_setKey_self st _ _
            · simp only [decide_eq_true_eq] at hc
              exact hc
        · refine ⟨v, ?_, hve⟩
          rw [lookupKey_setKey_ne st _ _ _ (fun he' => hbs he'.symm), hv]
      · exact ⟨v, hv, hve⟩

theorem values_pairwise_ne {l : List (ℤ × Base)}
    (hnd : (l.map (·.1)).Nodup) (hkm : KeysMatch l) :
    (l.map (·.2)).Pairwise (fun a b => a.start_date ≠ b.start_date) := by
  induction l with
  | nil => simp
  | cons q t ih =>
    rw [List.map_cons] at hnd
    rw [List.nodup_cons] at hnd
    rw [List.map_cons, List.pairwise_cons]
    constructor
    · intro b hb
      rcases List.mem_map.mp hb with ⟨p, hp, rfl⟩
      rw [hkm q (List.mem_cons_self q t), hkm p (List.mem_cons_of_mem q hp)]
      intro he
      apply hnd.1
      rw [he]
      exact List.mem_map.mpr ⟨p, hp, rfl⟩
    · exact ih hnd.2 (fun p hp => hkm p (List.mem_cons_of_mem q hp))

/-- C3: `find_bases` returns at most one base per distinct `start_date`, and
whenever a generated candidate with a given start ends at the series' last
week, deduplication keeps exactly one record with that start and it is one
ending at the last week (so of two candidates sharing a start, one current
and one stale, the current one survives); moreover past its data guards
`find_bases` is exactly the deduplication of the generated candidates. -/
theorem c3_find_bases_dedup :
    (∀ (wk : List WeeklyBar) (dl : List SmaRow) (atr : List (Option ℚ))
      (pv : Option PivotResult) (relax : Bool),
      (find_bases wk dl atr pv relax).Pairwise
        (fun a b => a.start_date ≠ b.start_date)) ∧
    (∀ (results : List Base) (last_week s : ℤ),
      (∃ b ∈ results, b.start_date = s ∧ b.end_date = last_week) →
      ((dedupBases last_week results).filter
        (fun b => decide (b.start_date = s))).length = 1 ∧
      (∀ c ∈ dedupBases last_week results, c.start_date = s →
        c.end_date = last_week)) ∧
    (∀ (wk : List WeeklyBar) (dl : List SmaRow) (atr : List (Option ℚ))
      (pv : Option PivotResult) (relax : Bool),
      4 ≤ wk.length → MIN_DAILY_BARS ≤ dl.length →
      find_bases wk dl atr pv relax =
        dedupBases (((wk.getLast?).map (·.date)).getD 0)
          ((candidateStarts wk (pivotHighIdxs wk) pv).filterMap
            (processCandidate wk dl atr (pivotLowIdxs wk) relax))) := by
  have hpair : ∀ (last : ℤ) (results : List Base),
      (dedupBases last results).Pairwise
        (fun a b => a.start_date ≠ b.start_date) := by
    intro last results
    unfold dedupBases
    exact values_pairwise_ne
      (dedupFold_nodup last results [] (by simp))
      (dedupFold_keysMatch last results [] (fun p hp => by cases hp))
  refine ⟨?_, ?_, ?_⟩
  · intro wk dl atr pv relax
    unfold find_bases
    split_ifs with h1 h2
    · exact List.Pairwise.nil
    · exact List.Pairwise.nil
    · exact hpair _ _
  · intro results last s h
    obtain ⟨v, hv, hve⟩ := dedupFold_current last results [] (Or.inl h)
    have hnd := dedupFold_nodup last results [] (by simp)
    have hkm := dedupFold_keysMatch last results [] (fun p hp => by cases hp)
    have hfil := filter_values_of_lookup hnd hkm hv
    unfold dedupBases
    constructor
    · rw [hfil]
      rfl
    · intro c hc hcs
      have hmem : c ∈ ((results.foldl (dedupStep last) []).map (·.2)).filter
          (fun b => decide (b.start_date = s)) :=
        List.mem_filter.mpr ⟨hc, by simp [hcs]⟩
      rw [hfil] at hmem
      simp only [List.mem_singleton] at hmem
      rw [hmem]
      exact hve
  · intro wk dl atr pv relax h4 hd
    unfold find_bases
    rw [if_neg, if_neg]
    · omega
    · intro hor
      rcases hor with he | hl
      · rw [List.isEmpty_iff_length_eq_zero] at he
        omega
      · omega

/-- C3 (witness): two records sharing start 300, one ending at the last week
391 and one ending earlier; exactly one survives deduplication and it ends at
391. -/
def c3b1 : Base :=
  { base_type := "Low cheat", start_date := 300, depth_pct := 51,
    duration_weeks := 8, end_date := 349, prior_high := 100,
    base_low := 49, resistance := 100, buy_point_date := none,
    distance_pct := 89/2, vcp_like := false, is_current := false }

def c3b2 : Base :=
  { base_type := "Low cheat", start_date := 300, depth_pct := 51,
    duration_weeks := 14, end_date := 391, prior_high := 100,
    base_low := 49, resistance := 100, buy_point_date := none,
    distance_pct := 79/2, vcp_like := false, is_current := false }

theorem c3_find_bases_dedup_witness :
    (∃ b ∈ [c3b1, c3b2], b.start_date = 300 ∧ b.end_date = 391) ∧
    ((dedupBases 391 [c3b1, c3b2]).filter
      (fun b => decide (b.start_date = 300))).length = 1 ∧
    (∀ c ∈ dedupBases 391 [c3b1, c3b2],
      c.start_date = 300 → c.end_date = 391) := by
  have h := c3_find_bases_dedup.2.1 [c3b1, c3b2] 391 300
    ⟨c3b2, List.mem_cons_of_mem _ (List.mem_cons_self _ _), rfl, rfl⟩
  exact ⟨⟨c3b2, List.mem_cons_of_mem _ (List.mem_cons_self _ _), rfl, rfl⟩, h.1, h.2⟩

-- ---------------------------------------------------------------------------
-- C7
-- ---------------------------------------------------------------------------

/-- `List.findIdx?` starting at `s` only returns indices past `s` and within
the list. -/
theorem findIdx_go_lt {α : Type} {p : α → Bool} :
    ∀ (l : List α) (s i : ℕ), List.findIdx? p l s = some i → i < s + l.length := by
  intro l
  induction l with
  | nil => intro s i h; simp [List.findIdx?] at h
  | cons a t ih =>
    intro s i h
    rw [List.findIdx?_cons] at h
    split at h
    · cases h; simp only [List.length_cons]; omega
    · have := ih (s + 1) i h
      simp only [List.length_cons]
      omega

/-- `List.findIdx?` (default start) returns a position inside the list. -/
theorem findIdx_some_lt {α : Type} {p : α → Bool} {l : List α} {i : ℕ}
    (h : l.findIdx? p = some i) : i < l.length := by
  have := findIdx_go_lt l 0 i h
  omega

/-- An in-range `getD` access yields a member of the list. -/
theorem getD_mem_of_lt {α : Type} [Inhabited α] {l : List α} {i : ℕ}
    (h : i < l.length) : l.getD i default ∈ l := by
  rw [List.getD_eq_getElem?_getD, List.getElem?_eq_getElem h, Option.getD_some]
  exact List.getElem_mem h

/-- The first two entries of a strictly sorted index list are in order. -/
theorem pairwise_getD01 {l : List ℕ} (hp : l.Pairwise (· < ·))
    (h2 : 2 ≤ l.length) : l.getD 0 0 < l.getD 1 0 := by
  rcases l with _ | ⟨a, _ | ⟨b, t⟩⟩
  · simp at h2
  · simp at h2
  · exact (List.pairwise_cons.mp hp).1 b (List.mem_cons_self _ _)

/-- A slice `iloc[a : b+1]` with `a` in range and `a ≤ b` is non-empty. -/
theorem sliceIncl_ne_nil {wk : List WeeklyBar} {a b : ℕ}
    (ha : a < wk.length) (hab : a ≤ b) : sliceIncl wk a b ≠ [] := by
  unfold sliceIncl
  intro h
  have hlen := congrArg List.length h
  simp only [List.length_take, List.length_drop, List.length_nil] at hlen
  omega

/-- Members of a slice are members of the whole series. -/
theorem mem_of_mem_sliceIncl {wk : List WeeklyBar} {a b : ℕ} {x : WeeklyBar}
    (h : x ∈ sliceIncl wk a b) : x ∈ wk := by
  unfold sliceIncl at h
  exact List.mem_of_mem_drop (List.mem_of_mem_take h)

/-- The maximum high over a well-formed slice is at least one cent whenever
every weekly high is. -/
theorem listMax_slice_ge_cent {wk : List WeeklyBar}
    (hpos : ∀ x ∈ wk, 1/100 ≤ x.high) {a b : ℕ}
    (ha : a < wk.length) (hab : a ≤ b) :
    1/100 ≤ listMax ((sliceIncl wk a b).map (·.high)) := by
  have hne : sliceIncl wk a b ≠ [] := sliceIncl_ne_nil ha hab
  have hmapne : (sliceIncl wk a b).map (·.high) ≠ [] := by
    simpa using hne
  obtain ⟨x, hx, hxe⟩ := List.mem_map.mp (listMax_mem _ hmapne)
  rw [← hxe]
  exact hpos x (mem_of_mem_sliceIncl hx)

/-- Weekly dates are monotone in the index when they are pairwise ordered. -/
theorem dates_mono {wk : List WeeklyBar}
    (h : wk.Pairwise (fun a b => a.date ≤ b.date)) {i j : ℕ}
    (hij : i ≤ j) (hj : j < wk.length) :
    (wk.getD i default).date ≤ (wk.getD j default).date := by
  rcases Nat.eq_or_lt_of_le hij with rfl | hlt
  · exact le_refl _
  · have hi : i < wk.length := lt_trans hlt hj
    rw [List.getD_eq_getElem?_getD, List.getElem?_eq_getElem hi, Option.getD_some,
      List.getD_eq_getElem?_getD, List.getElem?_eq_getElem hj, Option.getD_some]
    exact List.pairwise_iff_getElem.mp h i j hi hj hlt

/-- Pivot-high indices are positions in the weekly frame. -/
theorem pivotHighIdxs_lt {wk : List WeeklyBar} {i : ℕ}
    (h : i ∈ pivotHighIdxs wk) : i < wk.length := by
  unfold pivotHighIdxs at h
  exact List.mem_range.mp (List.mem_of_mem_filter h)

/-- Pivot-low indices are positions in the weekly frame. -/
theorem pivotLowIdxs_lt {wk : List WeeklyBar} {i : ℕ}
    (h : i ∈ pivotLowIdxs wk) : i < wk.length := by
  unfold pivotLowIdxs at h
  exact List.mem_range.mp (List.mem_of_mem_filter h)

/-- Pivot-low indices are strictly increasing. -/
theorem pivotLowIdxs_sorted (wk : List WeeklyBar) :
    (pivotLowIdxs wk).Pairwise (· < ·) := by
  unfold pivotLowIdxs
  exact List.Pairwise.filter _ (List.pairwise_lt_range _)

/-- `_classify_base` only ever returns one of six non-empty labels. -/
theorem classify_base_ne_empty {d : ℕ} {dp ph bl lc : ℚ} {tl : Bool}
    {l1 l2 : Option ℚ} {hh : Bool} {pg : Option ℚ} {ic : Bool} {s : String}
    (h : _classify_base d dp ph bl lc tl l1 l2 hh pg ic = some s) :
    s ≠ "" := by
  simp only [_classify_base] at h
  split_ifs at h <;> (try cases h) <;> decide

/-- Whenever every weekly high is at least one cent, the resistance computed
for a classified base interval is at least one cent, for any label. -/
theorem resistance_ge_cent (bt : String) (hh : Bool) {wk : List WeeklyBar}
    {hi_idx end_idx : ℕ} {lows : List ℕ}
    (hpos : ∀ x ∈ wk, 1/100 ≤ x.high)
    (hlow : ∀ i ∈ lows, i < wk.length ∧ i ≤ end_idx)
    (hsort : lows.Pairwise (· < ·))
    (hhi : hi_idx < wk.length) (hie : hi_idx ≤ end_idx) :
    1/100 ≤ _resistance_for_base bt (sliceIncl wk hi_idx end_idx)
      ((wk.getD hi_idx default).high) wk hi_idx end_idx lows hh := by
  unfold _resistance_for_base
  split_ifs with h1 h2 h3
  · obtain ⟨-, -, hlen⟩ := h1
    have hmem : lows.getD 1 0 ∈ lows := getD_mem_of_lt (by omega)
    obtain ⟨hwlt, hle⟩ := hlow _ hmem
    exact listMax_slice_ge_cent hpos hwlt hle
  · obtain ⟨-, hlen⟩ := h2
    have hmem0 : lows.getD 0 0 ∈ lows := getD_mem_of_lt (by omega)
    have hmem1 : lows.getD 1 0 ∈ lows := getD_mem_of_lt (by omega)
    obtain ⟨hw0, -⟩ := hlow _ hmem0
    have h01 : lows.getD 0 0 < lows.getD 1 0 := pairwise_getD01 hsort hlen
    exact listMax_slice_ge_cent hpos hw0 (le_of_lt h01)
  · exact listMax_slice_ge_cent hpos hhi hie
  · exact hpos _ (getD_mem_of_lt hhi)

theorem processCandidate_shape {wk : List WeeklyBar} {dl : List SmaRow}
    {atr : List (Option ℚ)} {lows : List ℕ} {relax : Bool}
    {c : ℕ × ℕ × CandSource} {b : Base}
    (h : processCandidate wk dl atr lows relax c = some b) :
    b.start_date = (wk.getD c.1 default).date ∧
    b.end_date = (wk.getD c.2.1 default).date ∧
    b.duration_weeks = c.2.1 - c.1 + 1 ∧
    b.base_type ≠ "" ∧
    ∃ bt hh, b.resistance =
      round2 (_resistance_for_base bt (sliceIncl wk c.1 c.2.1)
        ((wk.getD c.1 default).high) wk c.1 c.2.1
        (lows.filter (fun i => c.1 < i ∧ i ≤ c.2.1)) hh) := by
  simp only [processCandidate] at h
  split at h
  all_goals (
    split at h
    · exact absurd h (by simp)
    · obtain ⟨bt, heq, hfb⟩ := Option.map_eq_some'.mp h
      subst hfb
      exact ⟨rfl, rfl, rfl, classify_base_ne_empty heq, bt, _, rfl⟩)

/-- Packaging of the candidate-interval bounds for a tuple equality. -/
theorem bounds_of_eq {n : ℕ} {c : ℕ × ℕ × CandSource} {a b : ℕ}
    {s : CandSource} (h : c = (a, b, s)) (h1 : a ≤ b) (h2 : a < n)
    (h3 : b < n) : c.1 ≤ c.2.1 ∧ c.1 < n ∧ c.2.1 < n := by
  subst h
  exact ⟨h1, h2, h3⟩

/-- Every pivot-high candidate interval is well-formed and in range. -/
theorem pivotHighCands_bounds {wk : List WeeklyBar} {highs : List ℕ}
    (hn : 1 ≤ wk.length) (hhighs : ∀ i ∈ highs, i < wk.length) :
    ∀ c ∈ pivotHighCands wk highs,
      c.1 ≤ c.2.1 ∧ c.1 < wk.length ∧ c.2.1 < wk.length := by
  intro c hc
  simp only [pivotHighCands] at hc
  obtain ⟨hi, hmem, hf⟩ := List.mem_filterMap.mp hc
  split at hf
  · cases hf
  · rename_i hcond
    injection hf with hf
    refine bounds_of_eq hf.symm (by omega) (hhighs _ hmem) ?_
    split
    · rename_i next hfind
      have hnm := hhighs _ (List.mem_of_find?_eq_some hfind)
      exact lt_of_le_of_lt (Nat.sub_le _ _) hnm
    · exact Nat.sub_lt hn Nat.one_pos

/-- The trailing-high stage preserves well-formedness of the candidates. -/
theorem addTrailingHigh_bounds {wk : List WeeklyBar} {highs : List ℕ}
    {F : List (ℕ × ℕ × CandSource)} (hn : 1 ≤ wk.length)
    (hF : ∀ c ∈ F, c.1 ≤ c.2.1 ∧ c.1 < wk.length ∧ c.2.1 < wk.length) :
    ∀ c ∈ addTrailingHigh wk highs F,
      c.1 ≤ c.2.1 ∧ c.1 < wk.length ∧ c.2.1 < wk.length := by
  intro c hc
  simp only [addTrailingHigh] at hc
  split at hc
  · split at hc
    · rename_i hcond
      rcases List.mem_append.mp hc with hcF | hcT
      · exact hF _ hcF
      · rw [List.mem_singleton] at hcT
        obtain ⟨-, hb4, -⟩ := hcond
        exact bounds_of_eq hcT (by omega) (by omega) (by omega)
    · exact hF _ hc
  · exact hF _ hc

/-- The pivot-anchored stage preserves well-formedness of the candidates. -/
theorem addPivotAnchored_bounds {wk : List WeeklyBar} {pv : Option PivotResult}
    {F : List (ℕ × ℕ × CandSource)} (hn : 1 ≤ wk.length)
    (hF : ∀ c ∈ F, c.1 ≤ c.2.1 ∧ c.1 < wk.length ∧ c.2.1 < wk.length) :
    ∀ c ∈ addPivotAnchored wk pv F,
      c.1 ≤ c.2.1 ∧ c.1 < wk.length ∧ c.2.1 < wk.length := by
  intro c hc
  rcases pv with _ | pvv
  · simp only [addPivotAnchored] at hc
    exact hF _ hc
  · simp only [addPivotAnchored] at hc
    by_cases hform : pvv.forming = true
    · rw [if_pos hform] at hc
      rcases hps : pvv.pivot_start_date with _ | ps
      · simp only [hps] at hc
        exact hF _ hc
      · simp only [hps] at hc
        split at hc
        · split at hc
          · rename_i maxRow hfound
            split at hc
            · rename_i anchor heq
              split at hc
              · rcases List.mem_append.mp hc with hcF | hcT
                · exact hF _ hcF
                · rw [List.mem_singleton] at hcT
                  have halt := findIdx_some_lt heq
                  exact bounds_of_eq hcT (by omega) (by omega) (by omega)
              · exact hF _ hc
            · exact hF _ hc
          · exact hF _ hc
        · exact hF _ hc
    · rw [if_neg hform] at hc
      exact hF _ hc

/-- Every element surviving the deduplication fold of `find_bases` is either
from the initial accumulator or one of the folded records, with its
`is_current` flag set from its end date. -/
theorem dedupFold_mem (last : ℤ) :
    ∀ (l : List Base) (acc : List (ℤ × Base)) (p : ℤ × Base),
      p ∈ l.foldl (dedupStep last) acc →
      p ∈ acc ∨ ∃ b ∈ l,
        p.2 = { b with is_current := decide (b.end_date = last) } := by
  intro l
  induction l with
  | nil =>
    intro acc p hp
    exact Or.inl hp
  | cons b t ih =>
    intro acc p hp
    rw [List.foldl_cons] at hp
    rcases ih _ p hp with hacc | ⟨b0, hb0, he⟩
    · simp only [dedupStep] at hacc
      split at hacc
      · rcases setKey_mem p hacc with rfl | hpacc
        · right
          exact ⟨b, List.mem_cons_self _ _, rfl⟩
        · left
          exact hpacc
      · left
        exact hacc
    · right
      exact ⟨b0, List.mem_cons_of_mem _ hb0, he⟩

/-- Any record returned by `find_bases` originates from a generated candidate
interval, with only its `is_current` flag set by the deduplication pass. -/
theorem find_bases_mem {wk : List WeeklyBar} {dl : List SmaRow}
    {atr : List (Option ℚ)} {pv : Option PivotResult} {relax : Bool} {b : Base}
    (hb : b ∈ find_bases wk dl atr pv relax) :
    4 ≤ wk.length ∧
    ∃ c ∈ candidateStarts wk (pivotHighIdxs wk) pv, ∃ b0 : Base,
      processCandidate wk dl atr (pivotLowIdxs wk) relax c = some b0 ∧
      b = { b0 with
        is_current := decide (b0.end_date =
          (((wk.getLast?).map (·.date)).getD 0)) } := by
  simp only [find_bases] at hb
  split_ifs at hb with h1 h2
  · exact absurd hb (List.not_mem_nil _)
  · exact absurd hb (List.not_mem_nil _)
  · rw [dedupBases] at hb
    obtain ⟨p, hp, hpb⟩ := List.mem_map.mp hb
    rcases dedupFold_mem _ _ _ _ hp with hnil | ⟨b0, hb0, hshape⟩
    · exact absurd hnil (List.not_mem_nil _)
    · obtain ⟨c, hc, hf⟩ := List.mem_filterMap.mp hb0
      push_neg at h1
      refine ⟨by omega, c, hc, b0, hf, ?_⟩
      rw [← hpb, hshape]

/-- C7: every record returned by `find_bases` — for weekly data whose dates
are chronologically ordered and whose highs are positive prices (at least one
cent) — satisfies `start_date ≤ end_date`, has `duration_weeks` equal to its
generating interval's end index minus start index plus one, carries a
non-empty `base_type`, and has strictly positive `resistance`. -/
theorem c7_base_record_invariants (wk : List WeeklyBar) (dl : List SmaRow)
    (atr : List (Option ℚ)) (pv : Option PivotResult) (relax : Bool)
    (hmono : wk.Pairwise (fun a b => a.date ≤ b.date))
    (hpos : ∀ x ∈ wk, 1/100 ≤ x.high) :
    ∀ b ∈ find_bases wk dl atr pv relax,
      b.start_date ≤ b.end_date ∧
      (∃ i j : ℕ, i ≤ j ∧ j < wk.length ∧
        b.start_date = (wk.getD i default).date ∧
        b.end_date = (wk.getD j default).date ∧
        b.duration_weeks = j - i + 1) ∧
      b.base_type ≠ "" ∧
      0 < b.resistance := by
  intro b hb
  obtain ⟨h4, c, hc, b0, hpc, hbeq⟩ := find_bases_mem hb
  obtain ⟨hs, he, hd, hbt, bt, hh, hres⟩ := processCandidate_shape hpc
  have hn : 1 ≤ wk.length := by omega
  rw [candidateStarts] at hc
  obtain ⟨hce, hclt, hcend⟩ := addPivotAnchored_bounds hn
    (addTrailingHigh_bounds hn
      (pivotHighCands_bounds hn (fun i hi => pivotHighIdxs_lt hi)))
    c hc
  refine ⟨?_, ⟨c.1, c.2.1, hce, hcend, ?_, ?_, ?_⟩, ?_, ?_⟩
  · rw [hbeq]
    show b0.start_date ≤ b0.end_date
    rw [hs, he]
    exact dates_mono hmono hce hcend
  · rw [hbeq]
    show b0.start_date = _
    exact hs
  · rw [hbeq]
    show b0.end_date = _
    exact he
  · rw [hbeq]
    show b0.duration_weeks = _
    exact hd
  · rw [hbeq]
    show b0.base_type ≠ ""
    exact hbt
  · rw [hbeq]
    show (0 : ℚ) < b0.resistance
    rw [hres]
    have hlows : ∀ i ∈ (pivotLowIdxs wk).filter
        (fun i => c.1 < i ∧ i ≤ c.2.1), i < wk.length ∧ i ≤ c.2.1 := by
      intro i hi
      rw [List.mem_filter] at hi
      obtain ⟨him, hpred⟩ := hi
      simp only [decide_eq_true_eq] at hpred
      exact ⟨pivotLowIdxs_lt him, hpred.2⟩
    have hsort : ((pivotLowIdxs wk).filter
        (fun i => c.1 < i ∧ i ≤ c.2.1)).Pairwise (· < ·) :=
      List.Pairwise.filter _ (pivotLowIdxs_sorted wk)
    have h9 := resistance_ge_cent bt hh hpos hlows hsort hclt hce
    have h10 := round2_ge_cent h9
    linarith

/-- Weekly highs used by the C7 witness. -/
def c7highs : List ℚ :=
  [100, 50, 51, 52, 53, 54, 55, 56, 90, 57, 58, 59, 60, 61]

/-- Weekly bars for the C7 witness: a 100-high first week, a deep pullback
and a gradual recovery, one bar per Friday. -/
def c7wk : List WeeklyBar :=
  (List.range 14).map (fun i =>
    let h := c7highs.getD i 0
    { date := 300 + 7 * (i : ℤ), open' := h, high := h, low := h - 1,
      close := h - 1/2, volume := 1 })

/-- Daily SMA rows for the C7 witness: a strict long-term uptrend. -/
def c7dl : List SmaRow :=
  (List.range 252).map (fun i =>
    { date := (i : ℤ), close := 100, sma50 := some (300 + (i : ℚ)),
      sma150 := some (200 + (i : ℚ)), sma200 := some (100 + (i : ℚ)) })

/-- C7 (witness): the invariants hold over a concrete 14-week series with a
252-day uptrending daily frame. -/
theorem c7_base_record_invariants_witness :
    (c7wk.Pairwise (fun a b => a.date ≤ b.date)) ∧
    (∀ x ∈ c7wk, 1/100 ≤ x.high) ∧
    ∀ b ∈ find_bases c7wk c7dl [] none true,
      b.start_date ≤ b.end_date ∧
      (∃ i j : ℕ, i ≤ j ∧ j < c7wk.length ∧
        b.start_date = (c7wk.getD i default).date ∧
        b.end_date = (c7wk.getD j default).date ∧
        b.duration_weeks = j - i + 1) ∧
      b.base_type ≠ "" ∧
      0 < b.resistance :=
  ⟨by decide, by decide,
    c7_base_record_invariants c7wk c7dl [] none true (by decide) (by decide)⟩

-- ---------------------------------------------------------------------------
-- C8
-- ---------------------------------------------------------------------------

/-- Stepping one trading day either keeps the `W-FRI` bucket label or
advances it by exactly one week (when stepping over a Friday). -/
theorem fridayOn_tradingDaySucc (d : ℤ) (h : d % 7 < 5) :
    (d % 7 = 4 ∧ fridayOn (tradingDaySucc d) = fridayOn d + 7 ∧
      tradingDaySucc d % 7 = 0) ∨
    (d % 7 ≠ 4 ∧ fridayOn (tradingDaySucc d) = fridayOn d ∧
      tradingDaySucc d % 7 = d % 7 + 1) := by
  unfold tradingDaySucc fridayOn
  split_ifs with h4
  · exact Or.inl ⟨h4, by omega, by omega⟩
  · exact Or.inr ⟨h4, by omega, by omega⟩

/-- Over a gap-free trading-day frame the `W-FRI` label of the last bar
exceeds that of the first by `7·W` weeks, with `5·W` bounded by the number of
bars plus the first bar's weekday. -/
theorem c8_span : ∀ (t : List DailyBar) (b last : DailyBar),
    (∀ x ∈ b :: t, x.date % 7 < 5) →
    List.Chain' (fun a c => c.date = tradingDaySucc a.date) (b :: t) →
    (b :: t).getLast? = some last →
    ∃ W : ℕ, fridayOn last.date - fridayOn b.date = 7 * W ∧
      5 * (W : ℤ) ≤ (t.length : ℤ) + b.date % 7 := by
  intro t
  induction t with
  | nil =>
    intro b last hwd hch hl
    simp only [List.getLast?_singleton, Option.some.injEq] at hl
    subst hl
    refine ⟨0, by omega, by push_cast; omega⟩
  | cons b' t' ih =>
    intro b last hwd hch hl
    rw [List.chain'_cons] at hch
    obtain ⟨hrel, hch'⟩ := hch
    rw [List.getLast?_cons_cons] at hl
    obtain ⟨W', hspan, hbound⟩ :=
      ih b' last (fun x hx => hwd x (List.mem_cons_of_mem _ hx)) hch' hl
    have hb5 := hwd b (List.mem_cons_self _ _)
    rw [hrel] at hspan hbound
    rcases fridayOn_tradingDaySucc b.date hb5 with ⟨h4, hf, hm⟩ | ⟨h4, hf, hm⟩
    · refine ⟨W' + 1, ?_, ?_⟩
      · rw [hf] at hspan
        push_cast
        omega
      · rw [hm] at hbound
        simp only [List.length_cons]
        push_cast at hbound ⊢
        omega
    · refine ⟨W', ?_, ?_⟩
      · rw [hf] at hspan
        exact hspan
      · rw [hm] at hbound
        simp only [List.length_cons]
        push_cast at hbound ⊢
        omega

/-- Over a gap-free trading-day frame every weekly bucket between the first
and last `W-FRI` labels contains a daily bar. -/
theorem c8_hit : ∀ (t : List DailyBar) (b last : DailyBar) (w : ℤ),
    (∀ x ∈ b :: t, x.date % 7 < 5) →
    List.Chain' (fun a c => c.date = tradingDaySucc a.date) (b :: t) →
    (b :: t).getLast? = some last →
    fridayOn b.date ≤ w → w ≤ fridayOn last.date →
    7 ∣ (w - fridayOn b.date) →
    ∃ bar ∈ b :: t, fridayOn bar.date = w := by
  intro t
  induction t with
  | nil =>
    intro b last w hwd hch hl h0 h1 hdvd
    simp only [List.getLast?_singleton, Option.some.injEq] at hl
    subst hl
    exact ⟨b, List.mem_cons_self _ _, by omega⟩
  | cons b' t' ih =>
    intro b last w hwd hch hl h0 h1 hdvd
    by_cases hw : fridayOn b.date = w
    · exact ⟨b, List.mem_cons_self _ _, hw⟩
    · rw [List.chain'_cons] at hch
      obtain ⟨hrel, hch'⟩ := hch
      rw [List.getLast?_cons_cons] at hl
      have hb5 := hwd b (List.mem_cons_self _ _)
      have hstep : fridayOn b'.date = fridayOn b.date ∨
          fridayOn b'.date = fridayOn b.date + 7 := by
        rcases fridayOn_tradingDaySucc b.date hb5 with ⟨-, hf, -⟩ | ⟨-, hf, -⟩
        · right
          rw [hrel]
          exact hf
        · left
          rw [hrel]
          exact hf
      obtain ⟨q, hq⟩ := hdvd
      have h7 : fridayOn b.date + 7 ≤ w := by omega
      obtain ⟨bar, hbar, hbw⟩ := ih b' last w
        (fun x hx => hwd x (List.mem_cons_of_mem _ hx)) hch' hl
        (by rcases hstep with h | h <;> omega) h1
        (by
          rcases hstep with h | h
          · exact ⟨q, by omega⟩
          · exact ⟨q - 1, by omega⟩)
      exact ⟨bar, List.mem_cons_of_mem _ hbar, hbw⟩

/-- Dates along a gap-free trading-day frame are strictly increasing. -/
theorem chain_dates_pairwise {df : List DailyBar}
    (hch : List.Chain' (fun a c => c.date = tradingDaySucc a.date) df) :
    df.Pairwise (fun a c => a.date < c.date) := by
  haveI : IsTrans DailyBar (fun a c => a.date < c.date) :=
    ⟨fun a b c h1 h2 => lt_trans h1 h2⟩
  rw [← List.chain'_iff_pairwise]
  refine hch.imp ?_
  intro a c h
  rw [h]
  unfold tradingDaySucc
  split_ifs <;> omega

/-- The last element of a date-sorted frame has the largest date. -/
theorem getLast_max : ∀ (l : List DailyBar),
    l.Pairwise (fun a c => a.date < c.date) → ∀ g, l.getLast? = some g →
    ∀ x ∈ l, x.date ≤ g.date := by
  intro l
  induction l with
  | nil =>
    intro _ g hg
    cases hg
  | cons a t ih =>
    intro hp g hg x hx
    rcases t with _ | ⟨b, t'⟩
    · simp only [List.getLast?_singleton, Option.some.injEq] at hg
      subst hg
      rcases List.mem_singleton.mp hx with rfl
      exact le_refl _
    · rw [List.getLast?_cons_cons] at hg
      rw [List.pairwise_cons] at hp
      obtain ⟨hhead, htail⟩ := hp
      rcases List.mem_cons.mp hx with rfl | hx'
      · exact le_of_lt (hhead g (List.mem_of_mem_getLast? hg))
      · exact ih htail g hg x hx'

/-- The label of a weekly row is its bucket. -/
theorem weeklyRow_date (df : List DailyBar) (w : ℤ) :
    (weeklyRow df w).date = w := by
  simp only [weeklyRow]
  split <;> rfl

/-- Every weekly row carries a summed volume, so `dropna(how="all")` keeps
it. -/
theorem weeklyRow_volume_isSome (df : List DailyBar) (w : ℤ) :
    (weeklyRow df w).volume.isSome := by
  simp only [weeklyRow]
  split <;> rfl

/-- The close of a non-empty weekly bucket is the close of the bucket's last
daily bar. -/
theorem weeklyRow_close (df : List DailyBar) (w : ℤ)
    (h : ¬(df.filter (fun b => fridayOn b.date = w)).isEmpty = true) :
    (weeklyRow df w).close =
      ((df.filter (fun b => fridayOn b.date = w)).getLast?).map (·.close) := by
  simp only [weeklyRow]
  rw [if_neg h]

/-- C8: for a gap-free trading-day daily frame, the weekly frame has at most
`⌈n/5⌉ + 1` rows, and each weekly bar's close is the close of the
chronologically last daily bar of that calendar week. -/
theorem c8_to_weekly_bound_and_close (df : List DailyBar)
    (hwd : ∀ x ∈ df, x.date % 7 < 5)
    (hch : List.Chain' (fun a c => c.date = tradingDaySucc a.date) df) :
    (to_weekly df).length ≤ (df.length + 4) / 5 + 1 ∧
    ∀ r ∈ to_weekly df,
      ∃ bar ∈ df, fridayOn bar.date = r.date ∧ r.close = some bar.close ∧
        ∀ x ∈ df, fridayOn x.date = r.date → x.date ≤ bar.date := by
  rcases df with _ | ⟨b, t⟩
  · constructor
    · simp [to_weekly]
    · intro r hr
      simp [to_weekly] at hr
  · rcases hgl : (b :: t).getLast? with _ | last
    · have hs : (b :: t).getLast?.isSome = true :=
        List.getLast?_isSome.mpr (by simp)
      rw [hgl] at hs
      simp at hs
    · obtain ⟨W, hspan, hbound⟩ := c8_span t b last hwd hch hgl
      have hNW : ((fridayOn last.date - fridayOn b.date) / 7 + 1).toNat
          = W + 1 := by
        rw [hspan, Int.mul_ediv_cancel_left _ (by norm_num : (7:ℤ) ≠ 0)]
        omega
      simp only [to_weekly, List.head?_cons, hgl]
      constructor
      · refine le_trans (List.length_filter_le _ _) ?_
        rw [List.length_map, List.length_range, hNW]
        have hb5 := hwd b (List.mem_cons_self _ _)
        simp only [List.length_cons]
        omega
      · intro r hr
        have hr' := List.mem_of_mem_filter hr
        obtain ⟨k, hk, rfl⟩ := List.mem_map.mp hr'
        rw [List.mem_range, hNW] at hk
        obtain ⟨bar0, hbar0, hbw0⟩ := c8_hit t b last
          (fridayOn b.date + 7 * (k : ℤ)) hwd hch hgl
          (by push_cast; omega)
          (by push_cast at hk ⊢; omega)
          ⟨(k : ℤ), by push_cast; ring⟩
        have hgne : ¬((b :: t).filter
            (fun x => fridayOn x.date = fridayOn b.date + 7 * (k : ℤ))).isEmpty
            = true := by
          intro hemp
          rw [List.isEmpty_iff] at hemp
          have : bar0 ∈ (b :: t).filter
              (fun x => fridayOn x.date = fridayOn b.date + 7 * (k : ℤ)) :=
            List.mem_filter.mpr ⟨hbar0, by simp [hbw0]⟩
          rw [hemp] at this
          exact absurd this (List.not_mem_nil _)
        rcases hg : ((b :: t).filter
            (fun x => fridayOn x.date = fridayOn b.date + 7 * (k : ℤ))).getLast?
            with _ | g
        · have hs2 : ((b :: t).filter
              (fun x => fridayOn x.date = fridayOn b.date + 7 * (k : ℤ))).getLast?.isSome
              = true := by
            rw [List.getLast?_isSome]
            intro hemp
            rw [← List.isEmpty_iff] at hemp
            exact hgne hemp
          rw [hg] at hs2
          simp at hs2
        · have hgmem := List.mem_of_mem_getLast? hg
          have hgdf := List.mem_of_mem_filter hgmem
          have hgw : fridayOn g.date = fridayOn b.date + 7 * (k : ℤ) := by
            have := (List.mem_filter.mp hgmem).2
            simpa using this
          refine ⟨g, hgdf, ?_, ?_, ?_⟩
          · rw [weeklyRow_date]
            exact hgw
          · rw [weeklyRow_close _ _ hgne, hg]
            rfl
          · intro x hx hfx
            rw [weeklyRow_date] at hfx
            have hxg : x ∈ (b :: t).filter
                (fun y => fridayOn y.date = fridayOn b.date + 7 * (k : ℤ)) :=
              List.mem_filter.mpr ⟨hx, by simp [hfx]⟩
            exact getLast_max _
              (List.Pairwise.filter _ (chain_dates_pairwise hch)) g hg x hxg

/-- Daily bars for the C8 witness: seven consecutive trading days starting on
a Wednesday, spanning two calendar weeks. -/
def c8df : List DailyBar :=
  [{ date := 2, open' := 1, high := 1, low := 1, close := 2, volume := 1 },
   { date := 3, open' := 1, high := 1, low := 1, close := 3, volume := 1 },
   { date := 4, open' := 1, high := 1, low := 1, close := 4, volume := 1 },
   { date := 7, open' := 1, high := 1, low := 1, close := 7, volume := 1 },
   { date := 8, open' := 1, high := 1, low := 1, close := 8, volume := 1 },
   { date := 9, open' := 1, high := 1, low := 1, close := 9, volume := 1 },
   { date := 10, open' := 1, high := 1, low := 1, close := 10, volume := 1 }]

/-- C8 (witness): the bound and the weekly-close property hold on a concrete
seven-day frame spanning two calendar weeks. -/
theorem c8_to_weekly_bound_and_close_witness :
    (∀ x ∈ c8df, x.date % 7 < 5) ∧
    List.Chain' (fun a c => c.date = tradingDaySucc a.date) c8df ∧
    ((to_weekly c8df).length ≤ (c8df.length + 4) / 5 + 1 ∧
      ∀ r ∈ to_weekly c8df,
        ∃ bar ∈ c8df, fridayOn bar.date = r.date ∧ r.close = some bar.close ∧
          ∀ x ∈ c8df, fridayOn x.date = r.date → x.date ≤ bar.date) := by
  have hchain : List.Chain' (fun a c => c.date = tradingDaySucc a.date) c8df := by
    unfold c8df
    refine List.chain'_cons.mpr ⟨by decide, ?_⟩
    refine List.chain'_cons.mpr ⟨by decide, ?_⟩
    refine List.chain'_cons.mpr ⟨by decide, ?_⟩
    refine List.chain'_cons.mpr ⟨by decide, ?_⟩
    refine List.chain'_cons.mpr ⟨by decide, ?_⟩
    refine List.chain'_cons.mpr ⟨by decide, ?_⟩
    exact List.chain'_singleton _
  exact ⟨by decide, hchain,
    c8_to_weekly_bound_and_close c8df (by decide) hchain⟩

end TurtleRpm